import Mathlib

/-!
Verification of the duplicate-pattern detection engine of
`@aiready/pattern-detect` (`src/detector.ts`), as a shallow embedding.

Strings are processed as `List Char`.  The external collaborators
`similarityScore` and `estimateTokens` (imported from `@aiready/core`,
not part of this repository) are modelled as function parameters.
JavaScript numbers used as counters/sizes are modelled as `Nat`
(`braceDepth`, which can go negative, as `Int`), and the floating
point similarity scores as `Rat`.
-/

namespace AiReady

/-! ### Character classes

These mirror the JavaScript regular-expression character classes used in
`detector.ts` : `isJSWhitespace` is `\s` (also the set trimmed by
`String.prototype.trim`), `isWordChar` is `\w` (so also the word-boundary
`\b` test set), `isLineTerm` is the set of line terminators relevant to the
`m` flag and to `.`.  Quote and brace characters are defined from their
code points. -/

def lbrace : Char := Char.ofNat 123
def rbrace : Char := Char.ofNat 125
def dqChar : Char := Char.ofNat 34
def sqChar : Char := Char.ofNat 39
def bqChar : Char := Char.ofNat 96

def isLineTerm (c : Char) : Bool :=
  c = '\n' || c = '\r' || c = '\u2028' || c = '\u2029'

def isJSWhitespace (c : Char) : Bool :=
  c = ' ' || c = '\t' || c = '\n' || c = '\u000B' || c = '\u000C' || c = '\r' ||
  c = '\u00A0' || c = '\u1680' || ('\u2000' ≤ c && c ≤ '\u200A') ||
  c = '\u2028' || c = '\u2029' || c = '\u202F' || c = '\u205F' ||
  c = '\u3000' || c = '\uFEFF'

def isWordChar (c : Char) : Bool :=
  ('a' ≤ c && c ≤ 'z') || ('A' ≤ c && c ≤ 'Z') || ('0' ≤ c && c ≤ '9') || c = '_'

def isDigitChar (c : Char) : Bool :=
  '0' ≤ c && c ≤ '9'

/-! ### Generic string helpers (JS `String.prototype` methods) -/

/-- JS `String.prototype.trim` on a character list. -/
def jsTrimList (l : List Char) : List Char :=
  (((l.dropWhile isJSWhitespace).reverse).dropWhile isJSWhitespace).reverse

def jsTrim (s : String) : String :=
  String.mk (jsTrimList s.data)

/-- Does `pat` occur as a contiguous substring?  (JS `String.prototype.includes`.) -/
def hasSubstr (pat : List Char) : List Char → Bool
  | [] => pat.isEmpty
  | c :: rest => List.isPrefixOf pat (c :: rest) || hasSubstr pat rest

/-- JS `s.includes(sub)`. -/
def jsIncludes (s sub : String) : Bool :=
  hasSubstr sub.data s.data

/-- JS `s.startsWith(sub)`. -/
def jsStartsWith (s sub : String) : Bool :=
  List.isPrefixOf sub.data s.data

/-- JS `content.split('\n')` : split at every newline, keeping empty pieces. -/
def splitOnNl : List Char → List (List Char)
  | [] => [[]]
  | c :: rest =>
    if c = '\n' then [] :: splitOnNl rest
    else
      match splitOnNl rest with
      | [] => [[c]]
      | l :: ls => (c :: l) :: ls

/-- JS `lines.join('\n')`. -/
def joinNl : List (List Char) → List Char
  | [] => []
  | [l] => l
  | l :: ls => l ++ '\n' :: joinNl ls

theorem dropWhile_length_le {α : Type} (p : α → Bool) (l : List α) :
    (l.dropWhile p).length ≤ l.length :=
  (List.dropWhile_sublist p).length_le

/-- Fields of maximal runs of non-separator characters: the effect of JS
`s.split(/[sep]+/).filter(Boolean)`.  `run` accumulates the current field. -/
def splitFieldsAux (sep : Char → Bool) (run : List Char) : List Char → List (List Char)
  | [] => if run.isEmpty then [] else [run]
  | c :: rest =>
    if sep c then
      if run.isEmpty then splitFieldsAux sep [] rest
      else run :: splitFieldsAux sep [] rest
    else splitFieldsAux sep (run ++ [c]) rest

def splitFields (sep : Char → Bool) (l : List Char) : List (List Char) :=
  splitFieldsAux sep [] l

/-! ### `normalizeCode` (detector.ts lines 194-211)

Each `.replace` call of the source is modelled by one scanner on
`List Char`, applied in source order:
line comments (`/\/\/.*$/gm`), block comments (`/\/\*[\s\S]*?\*\//g`),
the three quote normalisations (`/"[^"]*"/g` etc. to `"STR"`), number
normalisation (`/\b\d+\b/g` to `NUM`), whitespace collapse (`/\s+/g` to
a single space) and the final `.trim()`. -/

/-- Remove `//`-to-end-of-line comments.  The first mode argument is true
while skipping inside a comment; the line terminator survives (`.` does not
match it) and scanning resumes there. -/
def rmLineAux : Bool → List Char → List Char
  | true, [] => []
  | true, c :: rest =>
    if isLineTerm c then c :: rmLineAux false rest else rmLineAux true rest
  | false, [] => []
  | false, [c] => [c]
  | false, c :: d :: rest =>
    if c = '/' && d = '/' then rmLineAux true rest
    else c :: rmLineAux false (d :: rest)

def rmLineComments (l : List Char) : List Char :=
  rmLineAux false l

/-- Is there a `*/` ahead?  (Whether the non-greedy block-comment regex can
close a match opened at the current position.) -/
def hasCloser : List Char → Bool
  | [] => false
  | [_] => false
  | c :: d :: rest => (c = '*' && d = '/') || hasCloser (d :: rest)

/-- Remove non-greedy block comments `/* ... */`.  The mode argument is true
between an opener and its earliest closer.  An opener with no later closer
leaves the whole remainder verbatim (no later opener can close either). -/
def rmBlockAux : Bool → List Char → List Char
  | true, [] => []
  | true, [_] => []
  | true, c :: d :: rest =>
    if c = '*' && d = '/' then rmBlockAux false rest
    else rmBlockAux true (d :: rest)
  | false, [] => []
  | false, [c] => [c]
  | false, c :: d :: rest =>
    if c = '/' && d = '*' then
      if hasCloser rest then rmBlockAux true rest else c :: d :: rest
    else c :: rmBlockAux false (d :: rest)

def rmBlockComments (l : List Char) : List Char :=
  rmBlockAux false l

/-- Replace each quoted literal `q…q` by `qSTRq` (the
`.replace(/"[^"]*"/g, '"STR"')` family, one call per quote kind).  At an
opening quote with a later closing quote, `qSTR` is emitted and the true
mode skips to the closer, emitting the closing `q`; an opening quote with
no later quote leaves the remainder verbatim. -/
def replQAux (q : Char) : Bool → List Char → List Char
  | true, [] => []
  | true, c :: rest =>
    if c = q then q :: replQAux q false rest else replQAux q true rest
  | false, [] => []
  | false, c :: rest =>
    if c = q then
      if rest.contains q then q :: 'S' :: 'T' :: 'R' :: replQAux q true rest
      else c :: rest
    else c :: replQAux q false rest

def replQuote (q : Char) (l : List Char) : List Char :=
  replQAux q false l

/-- Replace each full-word run of digits by `NUM`
(`.replace(/\b\d+\b/g, 'NUM')`).  `prevWord` : was the character just
before the current digit run a word character (the left `\b` test);
`run` : digits of the current run seen so far.  A run is replaced exactly
when both neighbours fail the word test (string ends count as boundaries);
otherwise no position inside the run can match and it stays verbatim. -/
def replNumAux (prevWord : Bool) (run : List Char) : List Char → List Char
  | [] => if run.isEmpty then [] else if prevWord then run else ['N', 'U', 'M']
  | c :: rest =>
    if isDigitChar c then replNumAux prevWord (run ++ [c]) rest
    else if run.isEmpty then c :: replNumAux (isWordChar c) [] rest
    else if prevWord || isWordChar c then
      run ++ c :: replNumAux (isWordChar c) [] rest
    else 'N' :: 'U' :: 'M' :: c :: replNumAux (isWordChar c) [] rest

def replNum (l : List Char) : List Char :=
  replNumAux false [] l

/-- Collapse every whitespace run to one space (`.replace(/\s+/g, ' ')`).
The mode argument is true when the previous character was whitespace (its
single replacement space already emitted). -/
def collapseWSAux : Bool → List Char → List Char
  | _, [] => []
  | inRun, c :: rest =>
    if isJSWhitespace c then
      if inRun then collapseWSAux true rest else ' ' :: collapseWSAux true rest
    else c :: collapseWSAux false rest

def collapseWS (l : List Char) : List Char :=
  collapseWSAux false l

/-- The whole normaliser on character lists, stages in source order. -/
def normalizeList (l : List Char) : List Char :=
  jsTrimList (collapseWS (replNum (replQuote bqChar (replQuote sqChar
    (replQuote dqChar (rmBlockComments (rmLineComments l)))))))

/-- `normalizeCode` of detector.ts. -/
def normalizeCode (s : String) : String :=
  String.mk (normalizeList s.data)

/-! ### The two anchored regex tests of the block extractor

`/^(export\s+)?(async\s+)?function\s+/` and
`/^(export\s+)?const\s+\w+\s*=\s*(async\s*)?\(/`.  Both are deterministic
on every input: an optional group `(lit\s+)?` can be committed to greedily,
because when it matches, the continuation after skipping it would have to
start with the first letter of `lit`, which never equals the first letter
of the next pattern part. -/

/-- Strip an exact literal prefix. -/
def stripLit : List Char → List Char → Option (List Char)
  | [], rest => some rest
  | _ :: _, [] => none
  | p :: ps, c :: rest => if c = p then stripLit ps rest else none

/-- `\s+` : at least one whitespace character, consumed greedily. -/
def stripWsPlus (l : List Char) : Option (List Char) :=
  match l with
  | [] => none
  | c :: rest =>
    if isJSWhitespace c then some (rest.dropWhile isJSWhitespace) else none

/-- The optional group `(lit\s+)?`, committed greedily (see above). -/
def stripOptLitWs (lit : List Char) (l : List Char) : List Char :=
  match stripLit lit l with
  | some rest =>
    match stripWsPlus rest with
    | some rest2 => rest2
    | none => l
  | none => l

/-- `/^(export\s+)?(async\s+)?function\s+/.test(trimmed)`. -/
def reFuncDecl (l : List Char) : Bool :=
  let l2 := stripOptLitWs (String.data ("async")) (stripOptLitWs (String.data ("export")) l)
  match stripLit (String.data ("function")) l2 with
  | some rest => (stripWsPlus rest).isSome
  | none => false

/-- `/^(export\s+)?const\s+\w+\s*=\s*(async\s*)?\(/.test(trimmed)`. -/
def reConstArrow (l : List Char) : Bool :=
  let l1 := stripOptLitWs (String.data ("export")) l
  match stripLit (String.data ("const")) l1 with
  | none => false
  | some r1 =>
    match stripWsPlus r1 with
    | none => false
    | some r2 =>
      match r2 with
      | [] => false
      | c :: rest =>
        if isWordChar c then
          let r3 := (rest.dropWhile isWordChar).dropWhile isJSWhitespace
          match r3 with
          | [] => false
          | e :: r4 =>
            if e = '=' then
              let r5 := r4.dropWhile isJSWhitespace
              let r6 :=
                match stripLit (String.data ("async")) r5 with
                | some ra => ra.dropWhile isJSWhitespace
                | none => r5
              match r6 with
              | p :: _ => p = '('
              | [] => false
            else false
        else false

/-! ### `categorizePattern` (detector.ts lines 54-110) -/

inductive PatternType where
  | function
  | classMethod
  | apiHandler
  | validator
  | utility
  | component
  | unknown
deriving DecidableEq, Repr, Inhabited

/-- JS `String.prototype.toLowerCase` (ASCII part, which is all the
classifier's needles exercise). -/
def jsToLower (s : String) : String :=
  String.mk (s.data.map Char.toLower)

def categorizePattern (code : String) : PatternType :=
  let lower := jsToLower code
  if (jsIncludes lower ("request") && jsIncludes lower ("response")) ||
      jsIncludes lower ("router.") || jsIncludes lower ("app.get") ||
      jsIncludes lower ("app.post") || jsIncludes lower ("express") ||
      jsIncludes lower ("ctx.body") then
    PatternType.apiHandler
  else if jsIncludes lower ("validate") || jsIncludes lower ("schema") ||
      jsIncludes lower ("zod") || jsIncludes lower ("yup") ||
      (jsIncludes lower ("if") && jsIncludes lower ("throw")) then
    PatternType.validator
  else if jsIncludes lower ("return (") || jsIncludes lower ("jsx") ||
      jsIncludes lower ("component") || jsIncludes lower ("props") then
    PatternType.component
  else if jsIncludes lower ("class ") || jsIncludes lower ("this.") then
    PatternType.classMethod
  else if jsIncludes lower ("return ") && !jsIncludes lower ("this") &&
      !jsIncludes lower ("new ") then
    PatternType.utility
  else if jsIncludes lower ("function") || jsIncludes lower ("=>") then
    PatternType.function
  else
    PatternType.unknown

/-! ### `extractCodeBlocks` (detector.ts lines 115-185) -/

structure RawBlock where
  content : String
  startLine : Nat
  patternType : PatternType
  linesOfCode : Nat
deriving DecidableEq, Repr, Inhabited

/-- Net effect of one line on `braceDepth`. -/
def lineBraceDelta (l : List Char) : Int :=
  l.foldl (fun d c => if c = lbrace then d + 1 else if c = rbrace then d - 1 else d) 0

/-- The function-start disjunction of the extractor. -/
def isFunctionStart (trimmed : List Char) : Bool :=
  hasSubstr (String.data ("function ")) trimmed ||
  hasSubstr (String.data ("=>")) trimmed ||
  hasSubstr (String.data ("async ")) trimmed ||
  reFuncDecl trimmed || reConstArrow trimmed

/-- `l.trim() && !l.trim().startsWith('//')` : is this a line of code? -/
def locLine (l : List Char) : Bool :=
  !(jsTrimList l).isEmpty && !(List.isPrefixOf (String.data ("//")) (jsTrimList l))

/-- The per-line loop of `extractCodeBlocks`, with all mutable state
explicit: remaining lines, current index `i`, `currentBlock`, `blockStart`,
`braceDepth`, `inFunction`, and the accumulated `blocks`. -/
def extractLoop (minLines : Nat) :
    List (List Char) → Nat → List (List Char) → Nat → Int → Bool →
      List RawBlock → List RawBlock
  | [], _, _, _, _, _, blocks => blocks
  | line :: rest, i, currentBlock, blockStart, braceDepth, inFunction, blocks =>
    let trimmed := jsTrimList line
    let startHere := !inFunction && isFunctionStart trimmed
    let inF := inFunction || startHere
    let bStart := if startHere then i else blockStart
    let depth := braceDepth + lineBraceDelta line
    let curr := if inF then currentBlock ++ [line] else currentBlock
    if inF ∧ depth = 0 ∧ minLines ≤ curr.length then
      let blockContent := joinNl curr
      let newBlock : RawBlock :=
        { content := String.mk blockContent
          startLine := bStart + 1
          patternType := categorizePattern (String.mk blockContent)
          linesOfCode := (curr.filter locLine).length }
      extractLoop minLines rest (i + 1) [] bStart depth false (blocks ++ [newBlock])
    else if inF ∧ depth = 0 then
      extractLoop minLines rest (i + 1) [] bStart depth false blocks
    else
      extractLoop minLines rest (i + 1) curr bStart depth inF blocks

def extractCodeBlocks (content : String) (minLines : Nat) : List RawBlock :=
  extractLoop minLines (splitOnNl content.data) 0 [] 0 0 false []

/-! ### Block records and tokenisation (detector.ts lines 24-49, 270-301) -/

structure FileContent where
  file : String
  content : String
deriving DecidableEq, Repr

structure CodeBlock where
  content : String
  startLine : Nat
  file : String
  normalized : String
  patternType : PatternType
  tokenCost : Nat
  linesOfCode : Nat
deriving DecidableEq, Repr, Inhabited

/-- Block extraction over all files, decorating each raw block with its
file, normalised text and (externally estimated) token cost. -/
def allBlocksOf (est : String → Nat) (files : List FileContent) (minLines : Nat) :
    List CodeBlock :=
  (files.map (fun f =>
    (extractCodeBlocks f.content minLines).map (fun b =>
      { content := b.content
        startLine := b.startLine
        file := f.file
        normalized := normalizeCode b.content
        patternType := b.patternType
        tokenCost := est b.content
        linesOfCode := b.linesOfCode }))).flatten

/-- Separator class of `calculateSimilarity`'s split, `[\s(){}[\];,]`. -/
def isSimSep (c : Char) : Bool :=
  isJSWhitespace c || c = '(' || c = ')' || c = lbrace || c = rbrace ||
  c = '[' || c = ']' || c = ';' || c = ','

/-- Separator class of the driver's tokenizer, `[\s(){}\[\];,\.]`. -/
def isTokSep (c : Char) : Bool :=
  isSimSep c || c = '.'

def stopwords : List String :=
  ["return", "const", "let", "var", "function", "class", "new", "if", "else",
   "for", "while", "async", "await", "try", "catch", "switch", "case",
   "default", "import", "export", "from", "true", "false", "null",
   "undefined", "this"]

/-- The driver's `tokenize` (detector.ts lines 296-299). -/
def tokenize (norm : String) : List String :=
  ((splitFields isTokSep norm.data).map String.mk).filter
    (fun t => 3 ≤ t.length && !(stopwords.contains (jsToLower t)))

/-! ### The two similarity metrics (detector.ts lines 216-247) -/

/-- `new Set(tokens)` keeps the first occurrence of each token, in
insertion order; `seen` is the set built so far. -/
def dedupAux (seen : List String) : List String → List String
  | [] => []
  | x :: rest =>
    if seen.contains x then dedupAux seen rest
    else x :: dedupAux (seen ++ [x]) rest

def dedupKeepFirst (l : List String) : List String :=
  dedupAux [] l

/-- Jaccard similarity of the two token sets (fast mode). -/
def jaccardSimilarity (tokens1 tokens2 : List String) : Rat :=
  let set1 := dedupKeepFirst tokens1
  let set2 := dedupKeepFirst tokens2
  let inter := (set1.filter (fun t => set2.contains t)).length
  let union := set1.length + set2.length - inter
  if union = 0 then 0 else mkRat inter union

/-- `calculateSimilarity` (exact mode), over an abstract edit-distance
similarity primitive `simScore`. -/
def calculateSimilarity (simScore : String → String → Rat) (block1 block2 : String) : Rat :=
  let norm1 := normalizeCode block1
  let norm2 := normalizeCode block2
  let baseSimilarity := simScore norm1 norm2
  let tokens1 := (splitFields isSimSep norm1.data).map String.mk
  let tokens2 := (splitFields isSimSep norm2.data).map String.mk
  let tokenSimilarity :=
    simScore (String.intercalate (" ") tokens1) (String.intercalate (" ") tokens2)
  baseSimilarity * (2 / 5) + tokenSimilarity * (3 / 5)

/-! ### Detection options and output records (detector.ts lines 3-49)

Field defaults are the destructuring defaults of the budgeted detector;
an absent optional field of the TypeScript interface is a field left at
its default here. -/

structure DetectionOptions where
  minSimilarity : Rat
  minLines : Nat
  maxBlocks : Nat := 500
  batchSize : Nat := 100
  approx : Bool := true
  minSharedTokens : Nat := 8
  maxCandidatesPerBlock : Nat := 100
  fastMode : Bool := true
  maxComparisons : Nat := 50000
deriving DecidableEq, Repr

structure DuplicatePattern where
  file1 : String
  file2 : String
  line1 : Nat
  line2 : Nat
  similarity : Rat
  snippet : String
  patternType : PatternType
  tokenCost : Nat
  linesOfCode : Nat
deriving DecidableEq, Repr, Inhabited

/-- `block1.content.split('\n').slice(0, 5).join('\n') + '\n...'`. -/
def snippetOf (content : String) : String :=
  String.mk (joinNl ((splitOnNl content.data).take 5) ++ String.data ("\n..."))

/-- The record pushed for a scored pair, `block1` being the lower-index
block of the pair. -/
def mkPattern (block1 block2 : CodeBlock) (similarity : Rat) : DuplicatePattern :=
  { file1 := block1.file
    file2 := block2.file
    line1 := block1.startLine
    line2 := block2.startLine
    similarity := similarity
    snippet := snippetOf block1.content
    patternType := block1.patternType
    tokenCost := block1.tokenCost + block2.tokenCost
    linesOfCode := block1.linesOfCode }

/-- JS `Array.prototype.sort` with a consistent comparator `cmp` is
required by the language spec to be a stable sort, which pins the output
down uniquely: it is the permutation sorted by the comparator with ties in
original-index order.  `le a b` renders `cmp(a, b) <= 0`, and
`List.enumLE le` is that index-refined total order. -/
def jsSort {α : Type} (le : α → α → Bool) (l : List α) : List α :=
  (l.enum.insertionSort (fun a b => List.enumLE le a b = true)).map Prod.snd

/-! ### The budgeted comparison driver (detector.ts lines 252-441) -/

/-- Comparator of the block-cap sort, `(a, b) => b.linesOfCode - a.linesOfCode`. -/
def blockLE (a b : CodeBlock) : Bool :=
  decide (b.linesOfCode ≤ a.linesOfCode)

/-- Block-cap truncation (detector.ts lines 282-288). -/
def retainedBlocksOf (est : String → Nat) (files : List FileContent)
    (options : DetectionOptions) : List CodeBlock :=
  let allBlocks := allBlocksOf est files options.minLines
  if options.maxBlocks < allBlocks.length then
    (jsSort blockLE allBlocks).take options.maxBlocks
  else allBlocks

def blockTokensOf (blocks : List CodeBlock) : List (List String) :=
  blocks.map (fun b => tokenize b.normalized)

/-- Multiplicity of `t` in `toks`. -/
def countOcc (t : String) (toks : List String) : Nat :=
  (toks.filter (fun x => x = t)).length

/-- The inverted-index posting list for token `t`: block index `i` appears
once per occurrence of `t` in block `i`'s token list, in ascending block
order — exactly how the index-construction loop pushes. -/
def postings (bt : List (List String)) (t : String) : List Nat :=
  ((List.range bt.length).map
    (fun i => List.replicate (countOcc t (bt.getD i [])) i)).flatten

/-- `counts.set(j, (counts.get(j) || 0) + 1)` on an insertion-ordered map. -/
def bump : List (Nat × Nat) → Nat → List (Nat × Nat)
  | [], j => [(j, 1)]
  | (k, c) :: rest, j =>
    if k = j then (k, c + 1) :: rest else (k, c) :: bump rest j

/-- Shared-token counts for block `i` (approx mode), skipping `j ≤ i` and
same-file blocks; entry order is the `Map` insertion order. -/
def candCounts (blocks : List CodeBlock) (bt : List (List String)) (i : Nat) :
    List (Nat × Nat) :=
  (bt.getD i []).foldl (fun acc tok =>
    (postings bt tok).foldl (fun acc2 j =>
      if j ≤ i then acc2
      else if (blocks.getD j default).file = (blocks.getD i default).file then acc2
      else bump acc2 j) acc) []

/-- Comparator of the candidate sort, `(a, b) => b[1] - a[1]`. -/
def candLE (a b : Nat × Nat) : Bool :=
  decide (b.2 ≤ a.2)

/-- The filtered, ranked, truncated candidate list for block `i`. -/
def candidatesOf (options : DetectionOptions) (blocks : List CodeBlock)
    (bt : List (List String)) (i : Nat) : List Nat :=
  ((jsSort candLE ((candCounts blocks bt i).filter
      (fun p => decide (options.minSharedTokens ≤ p.2)))).take
    options.maxCandidatesPerBlock).map Prod.fst

/-- The driver's mutable state: recorded matches, the comparison counter
and the budget-exhausted flag. -/
structure RunState where
  duplicates : List DuplicatePattern
  processed : Nat
  exhausted : Bool
deriving DecidableEq, Repr

/-- `maxComparisons && comparisonsProcessed >= maxComparisons` : the JS
number `maxComparisons` is falsy exactly when it is `0`. -/
def budgetHit (maxComparisons processed : Nat) : Bool :=
  !(decide (maxComparisons = 0)) && decide (maxComparisons ≤ processed)

/-- Similarity computed for pair `(i, j)` : Jaccard over the token lists in
fast mode, the Levenshtein blend over raw contents otherwise. -/
def pairSimilarity (simScore : String → String → Rat) (options : DetectionOptions)
    (blocks : List CodeBlock) (bt : List (List String)) (i j : Nat) : Rat :=
  if options.fastMode then jaccardSimilarity (bt.getD i []) (bt.getD j [])
  else
    calculateSimilarity simScore (blocks.getD i default).content
      (blocks.getD j default).content

/-- Inner loop of approx mode (detector.ts lines 372-398): the candidate
list is already forward-only and cross-file. -/
def innerApprox (simScore : String → String → Rat) (options : DetectionOptions)
    (blocks : List CodeBlock) (bt : List (List String)) (i : Nat) :
    List Nat → RunState → RunState
  | [], st => st
  | j :: rest, st =>
    if budgetHit options.maxComparisons st.processed then st
    else
      let st1 : RunState := { st with processed := st.processed + 1 }
      let s := pairSimilarity simScore options blocks bt i j
      if options.minSimilarity ≤ s then
        innerApprox simScore options blocks bt i rest
          { st1 with duplicates := st1.duplicates ++
              [mkPattern (blocks.getD i default) (blocks.getD j default) s] }
      else innerApprox simScore options blocks bt i rest st1

/-- Inner loop of exact mode (detector.ts lines 401-429): note the budget
unit is consumed before the same-file skip. -/
def innerExact (simScore : String → String → Rat) (options : DetectionOptions)
    (blocks : List CodeBlock) (bt : List (List String)) (i : Nat) :
    List Nat → RunState → RunState
  | [], st => st
  | j :: rest, st =>
    if budgetHit options.maxComparisons st.processed then st
    else
      let st1 : RunState := { st with processed := st.processed + 1 }
      if (blocks.getD i default).file = (blocks.getD j default).file then
        innerExact simScore options blocks bt i rest st1
      else
        let s := pairSimilarity simScore options blocks bt i j
        if options.minSimilarity ≤ s then
          innerExact simScore options blocks bt i rest
            { st1 with duplicates := st1.duplicates ++
                [mkPattern (blocks.getD i default) (blocks.getD j default) s] }
        else innerExact simScore options blocks bt i rest st1

/-- Outer loop over block indices (detector.ts lines 332-431); hitting the
budget at the head of an iteration breaks out with the exhausted flag. -/
def outerLoop (simScore : String → String → Rat) (options : DetectionOptions)
    (blocks : List CodeBlock) (bt : List (List String)) :
    List Nat → RunState → RunState
  | [], st => st
  | i :: rest, st =>
    if budgetHit options.maxComparisons st.processed then
      { st with exhausted := true }
    else
      let st2 :=
        if options.approx then
          innerApprox simScore options blocks bt i (candidatesOf options blocks bt i) st
        else
          innerExact simScore options blocks bt i
            (List.range' (i + 1) (blocks.length - (i + 1))) st
      outerLoop simScore options blocks bt rest st2

/-- One full run before the final sort. -/
def detectRun (simScore : String → String → Rat) (est : String → Nat)
    (files : List FileContent) (options : DetectionOptions) : RunState :=
  let blocks := retainedBlocksOf est files options
  let bt := blockTokensOf blocks
  outerLoop simScore options blocks bt (List.range blocks.length)
    { duplicates := [], processed := 0, exhausted := false }

/-- Final-sort comparator,
`(a, b) => b.similarity - a.similarity || b.tokenCost - a.tokenCost`. -/
def dupLE (a b : DuplicatePattern) : Bool :=
  decide (b.similarity < a.similarity) ||
  (decide (b.similarity = a.similarity) && decide (b.tokenCost ≤ a.tokenCost))

/-- The budgeted `detectDuplicatePatterns` (detector.ts lines 252-441),
over the abstract collaborators `simScore` and `est`. -/
def detectDuplicatePatterns (simScore : String → String → Rat) (est : String → Nat)
    (files : List FileContent) (options : DetectionOptions) : List DuplicatePattern :=
  jsSort dupLE (detectRun simScore est files options).duplicates

/-! ### The legacy exhaustive detector (detector.ts lines 670-726) -/

def legacyInner (simScore : String → String → Rat) (minSimilarity : Rat)
    (blocks : List CodeBlock) (i : Nat) :
    List Nat → List DuplicatePattern → List DuplicatePattern
  | [], acc => acc
  | j :: rest, acc =>
    if (blocks.getD i default).file = (blocks.getD j default).file then
      legacyInner simScore minSimilarity blocks i rest acc
    else
      let s := calculateSimilarity simScore (blocks.getD i default).content
        (blocks.getD j default).content
      if minSimilarity ≤ s then
        legacyInner simScore minSimilarity blocks i rest
          (acc ++ [mkPattern (blocks.getD i default) (blocks.getD j default) s])
      else legacyInner simScore minSimilarity blocks i rest acc

def legacyOuter (simScore : String → String → Rat) (minSimilarity : Rat)
    (blocks : List CodeBlock) :
    List Nat → List DuplicatePattern → List DuplicatePattern
  | [], acc => acc
  | i :: rest, acc =>
    legacyOuter simScore minSimilarity blocks rest
      (legacyInner simScore minSimilarity blocks i
        (List.range' (i + 1) (blocks.length - (i + 1))) acc)

/-- The legacy all-pairs `detectDuplicatePatterns` (the second copy kept in
the source file). -/
def legacyDetectDuplicatePatterns (simScore : String → String → Rat)
    (est : String → Nat) (files : List FileContent)
    (minSimilarity : Rat) (minLines : Nat) : List DuplicatePattern :=
  let allBlocks := allBlocksOf est files minLines
  jsSort dupLE (legacyOuter simScore minSimilarity allBlocks
    (List.range allBlocks.length) [])

/-! ### Reference variants and specification predicates -/

/-- A match that arises from a forward (`i < j`), cross-file pair of the
retained blocks, with all derived fields taken per `mkPattern`. -/
def GoodDup (blocks : List CodeBlock) (d : DuplicatePattern) : Prop :=
  ∃ (i j : Nat) (b1 b2 : CodeBlock) (s : Rat),
    i < j ∧ blocks[i]? = some b1 ∧ blocks[j]? = some b2 ∧
    b1.file ≠ b2.file ∧ d = mkPattern b1 b2 s

/-- Inner approx-mode loop with the comparison budget removed. -/
def innerApproxNB (simScore : String → String → Rat) (options : DetectionOptions)
    (blocks : List CodeBlock) (bt : List (List String)) (i : Nat) :
    List Nat → RunState → RunState
  | [], st => st
  | j :: rest, st =>
    let st1 : RunState := { st with processed := st.processed + 1 }
    let s := pairSimilarity simScore options blocks bt i j
    if options.minSimilarity ≤ s then
      innerApproxNB simScore options blocks bt i rest
        { st1 with duplicates := st1.duplicates ++
            [mkPattern (blocks.getD i default) (blocks.getD j default) s] }
    else innerApproxNB simScore options blocks bt i rest st1

/-- Inner exact-mode loop with the comparison budget removed. -/
def innerExactNB (simScore : String → String → Rat) (options : DetectionOptions)
    (blocks : List CodeBlock) (bt : List (List String)) (i : Nat) :
    List Nat → RunState → RunState
  | [], st => st
  | j :: rest, st =>
    let st1 : RunState := { st with processed := st.processed + 1 }
    if (blocks.getD i default).file = (blocks.getD j default).file then
      innerExactNB simScore options blocks bt i rest st1
    else
      let s := pairSimilarity simScore options blocks bt i j
      if options.minSimilarity ≤ s then
        innerExactNB simScore options blocks bt i rest
          { st1 with duplicates := st1.duplicates ++
              [mkPattern (blocks.getD i default) (blocks.getD j default) s] }
      else innerExactNB simScore options blocks bt i rest st1

/-- Outer loop with the comparison budget removed. -/
def outerLoopNB (simScore : String → String → Rat) (options : DetectionOptions)
    (blocks : List CodeBlock) (bt : List (List String)) :
    List Nat → RunState → RunState
  | [], st => st
  | i :: rest, st =>
    let st2 :=
      if options.approx then
        innerApproxNB simScore options blocks bt i (candidatesOf options blocks bt i) st
      else
        innerExactNB simScore options blocks bt i
          (List.range' (i + 1) (blocks.length - (i + 1))) st
    outerLoopNB simScore options blocks bt rest st2

/-- The detector with the comparison budget removed (reference semantics for
the behaviour of a disabled budget). -/
def detectNoBudget (simScore : String → String → Rat) (est : String → Nat)
    (files : List FileContent) (options : DetectionOptions) : List DuplicatePattern :=
  let blocks := retainedBlocksOf est files options
  let bt := blockTokensOf blocks
  jsSort dupLE (outerLoopNB simScore options blocks bt (List.range blocks.length)
    { duplicates := [], processed := 0, exhausted := false }).duplicates

/-! ### Concrete inputs for counterexamples and witnesses -/

/-- A concrete token-cost estimator (the external `estimateTokens` is opaque;
any non-trivial estimator exhibits the behaviour). -/
def estLen : String → Nat := fun s => s.length

/-- A concrete similarity primitive (unused under `fastMode`). -/
def simZero : String → String → Rat := fun _ _ => 0

/-- A three-line function block (braces written via code points). -/
def srcSmall : String := String.mk
  (String.data ("function f() ") ++ [lbrace, '\n', 'x', '\n', rbrace])

/-- Two files with the same small function. -/
def filesPair : List FileContent :=
  [{ file := "a.ts", content := srcSmall }, { file := "b.ts", content := srcSmall }]

/-- Exact-mode options with everything permissive and the default budget. -/
def optsPlain : DetectionOptions :=
  { minSimilarity := 0, minLines := 1, approx := false, fastMode := true }

/-- Same, but with `maxComparisons` set to `0`. -/
def optsZero : DetectionOptions :=
  { minSimilarity := 0, minLines := 1, approx := false, fastMode := true,
    maxComparisons := 0 }

/-- A file of ten consecutive three-line function blocks. -/
def srcTen : String :=
  String.intercalate ("\n") (List.replicate 10 srcSmall)

/-- Two files of ten extracted blocks each (the §8 end-to-end scenario). -/
def filesTen : List FileContent :=
  [{ file := "a.ts", content := srcTen }, { file := "b.ts", content := srcTen }]

/-- Exact mode, defaults otherwise (budget 50000 and block cap 500 are not
binding on `filesTen`). -/
def optsTen : DetectionOptions :=
  { minSimilarity := 1, minLines := 1, approx := false, fastMode := true }

/-- A function whose three raw lines include one blank line. -/
def srcBlank : String := String.mk
  (String.data ("function f() ") ++ [lbrace, '\n', '\n', rbrace])

/-- The first match of a plain exact-mode run on `filesPair`. -/
def dupFirst : DuplicatePattern :=
  (detectDuplicatePatterns simZero estLen filesPair optsPlain).getD 0 default

/-- The number of exact-mode pairs contributed by each listed block index. -/
def pairsFor (n : Nat) (is : List Nat) : Nat :=
  (is.map (fun i => n - (i + 1))).sum

/-- Exact-mode options with a block cap of 1 (binding on `filesPair`). -/
def optsCap : DetectionOptions :=
  { minSimilarity := 0, minLines := 1, approx := false, fastMode := true,
    maxBlocks := 1 }

/-- One file with ten blocks (all pairs same-file, so the similarity
primitive is never consulted). -/
def filesOne : List FileContent :=
  [{ file := "a.ts", content := srcTen }]

/-- Exact mode with the Levenshtein blend (`fastMode = false`). -/
def optsLegacy : DetectionOptions :=
  { minSimilarity := 0, minLines := 1, approx := false, fastMode := false }

/-! ### Fixed-point checkers for the normaliser stages

One Boolean predicate per stage of `normalizeCode`, each true exactly when
the corresponding scanner leaves the list unchanged; used to prove that
normalisation is idempotent. -/

/-- No adjacent occurrence of the two characters `a`, `b`. -/
def noPairAt (a b : Char) : List Char → Bool
  | [] => true
  | [_] => true
  | c :: d :: rest => !(c = a && d = b) && noPairAt a b (d :: rest)

/-- No `//` anywhere (so the line-comment stage is the identity). -/
def noDSlash (l : List Char) : Bool :=
  noPairAt '/' '/' l

/-- Every `/*` opener lacks a later `*/` closer (so the block-comment
stage is the identity). -/
def blockOk : List Char → Bool
  | [] => true
  | [_] => true
  | c :: d :: rest =>
    if c = '/' && d = '*' then !(hasCloser rest) else blockOk (d :: rest)

/-- Every `q` either heads a literal `qSTRq` block or has no `q` after it
(so the `q`-quote stage is the identity). -/
def quoteOk (q : Char) : List Char → Bool
  | [] => true
  | c :: rest =>
    if c = q then
      if List.isPrefixOf ['S', 'T', 'R', q] rest then quoteOk q (rest.drop 4)
      else !(rest.contains q)
    else quoteOk q rest
termination_by l => l.length
decreasing_by
  · simp only [List.length_drop, List.length_cons]
    omega
  · simp only [List.length_cons]
    omega

/-- No digit run is flanked by word boundaries on both sides; `prevWord`
and `hasRun` track the scanner state (so the number stage is the
identity). -/
def numOkAux (prevWord hasRun : Bool) : List Char → Bool
  | [] => !hasRun || prevWord
  | c :: rest =>
    if isDigitChar c then numOkAux prevWord true rest
    else if hasRun then (prevWord || isWordChar c) && numOkAux (isWordChar c) false rest
    else numOkAux (isWordChar c) false rest

def numOk (l : List Char) : Bool :=
  numOkAux false false l

/-- Every whitespace character is a single space with a non-whitespace
successor (so the whitespace-collapse stage is the identity). -/
def wsOk : List Char → Bool
  | [] => true
  | [c] => !isJSWhitespace c || c = ' '
  | c :: d :: rest =>
    (!isJSWhitespace c || (c = ' ' && !isJSWhitespace d)) && wsOk (d :: rest)

/-- Neither end is whitespace (so `trim` is the identity). -/
def noEndWs (l : List Char) : Bool :=
  (match l.head? with
   | some c => !isJSWhitespace c
   | none => true) &&
  (match l.getLast? with
   | some c => !isJSWhitespace c
   | none => true)

/-! ## Theorems -/

/-! ### Membership structure of recorded matches -/

theorem getD_eq_some {α : Type} [Inhabited α] (l : List α) (i : Nat)
    (h : i < l.length) : l[i]? = some (l.getD i default) := by
  rw [List.getD_eq_getElem?_getD, List.getElem?_eq_getElem h]
  rfl

theorem jsSort_perm {α : Type} (le : α → α → Bool) (l : List α) :
    List.Perm (jsSort le l) l := by
  unfold jsSort
  have h2 := (List.perm_insertionSort
    (fun a b => List.enumLE le a b = true) l.enum).map Prod.snd
  rwa [List.enum_map_snd] at h2

theorem mem_jsSort {α : Type} (le : α → α → Bool) (l : List α) (x : α) :
    x ∈ jsSort le l ↔ x ∈ l :=
  (jsSort_perm le l).mem_iff

theorem bump_fst_mem :
    ∀ (l : List (Nat × Nat)) (j : Nat) (p : Nat × Nat),
      p ∈ bump l j → p.1 = j ∨ p.1 ∈ l.map Prod.fst := by
  intro l j
  induction l with
  | nil =>
    intro p hp
    simp only [bump, List.mem_singleton] at hp
    simp [hp]
  | cons kc rest ih =>
    intro p hp
    obtain ⟨k, c⟩ := kc
    simp only [bump] at hp
    split at hp
    · rcases List.mem_cons.mp hp with h | h
      · subst h; simp_all
      · simp [List.mem_map.mpr ⟨p, h, rfl⟩]
    · rcases List.mem_cons.mp hp with h | h
      · subst h; simp
      · rcases ih p h with h2 | h2
        · exact Or.inl h2
        · simp only [List.map_cons, List.mem_cons]
          exact Or.inr (Or.inr h2)

theorem postings_mem_lt (bt : List (List String)) (t : String) :
    ∀ j ∈ postings bt t, j < bt.length := by
  intro j hj
  unfold postings at hj
  rw [List.mem_flatten] at hj
  obtain ⟨l, hl, hjl⟩ := hj
  rw [List.mem_map] at hl
  obtain ⟨i, hi, rfl⟩ := hl
  rw [List.eq_of_mem_replicate hjl]
  exact List.mem_range.mp hi

theorem foldl_preserve {α β : Type} (P : β → Prop) (f : β → α → β) :
    ∀ (l : List α) (init : β), P init →
      (∀ b a, P b → a ∈ l → P (f b a)) → P (l.foldl f init) := by
  intro l
  induction l with
  | nil => intro init h _; simpa using h
  | cons x xs ih =>
    intro init h hstep
    simp only [List.foldl_cons]
    exact ih _ (hstep init x h (List.mem_cons_self x xs))
      (fun b a hb ha => hstep b a hb (List.mem_cons_of_mem x ha))

theorem candCounts_fst (blocks : List CodeBlock) (bt : List (List String)) (i : Nat) :
    ∀ p ∈ candCounts blocks bt i, i < p.1 ∧ p.1 < bt.length ∧
      (blocks.getD p.1 default).file ≠ (blocks.getD i default).file := by
  unfold candCounts
  refine foldl_preserve
    (fun (acc : List (Nat × Nat)) => ∀ p ∈ acc, i < p.1 ∧ p.1 < bt.length ∧
      (blocks.getD p.1 default).file ≠ (blocks.getD i default).file)
    _ _ _ (by intro p hp; simp at hp) ?_
  intro acc tok hacc _
  refine foldl_preserve
    (fun (acc2 : List (Nat × Nat)) => ∀ p ∈ acc2, i < p.1 ∧ p.1 < bt.length ∧
      (blocks.getD p.1 default).file ≠ (blocks.getD i default).file)
    _ _ _ hacc ?_
  intro acc2 j hacc2 hjpost
  split
  · exact hacc2
  split
  · exact hacc2
  intro p hp
  rcases bump_fst_mem acc2 j p hp with h | h
  · rw [h]
    refine ⟨by omega, postings_mem_lt bt tok j hjpost, by assumption⟩
  · rw [List.mem_map] at h
    obtain ⟨p', hp', hfst⟩ := h
    have := hacc2 p' hp'
    rw [← hfst]
    exact this

theorem candidatesOf_mem (options : DetectionOptions) (blocks : List CodeBlock)
    (bt : List (List String)) (i : Nat) :
    ∀ j ∈ candidatesOf options blocks bt i, i < j ∧ j < bt.length ∧
      (blocks.getD j default).file ≠ (blocks.getD i default).file := by
  intro j hj
  unfold candidatesOf at hj
  rw [List.mem_map] at hj
  obtain ⟨p, hp, rfl⟩ := hj
  have hp2 := List.take_subset _ _ hp
  rw [mem_jsSort] at hp2
  have hp3 := (List.mem_filter.mp hp2).1
  exact candCounts_fst blocks bt i p hp3

theorem innerApprox_good (simScore : String → String → Rat)
    (options : DetectionOptions) (blocks : List CodeBlock)
    (bt : List (List String)) (i : Nat) (hi : i < blocks.length) :
    ∀ (js : List Nat) (st : RunState),
      (∀ j ∈ js, i < j ∧ j < blocks.length ∧
        (blocks.getD j default).file ≠ (blocks.getD i default).file) →
      (∀ d ∈ st.duplicates, GoodDup blocks d) →
      ∀ d ∈ (innerApprox simScore options blocks bt i js st).duplicates,
        GoodDup blocks d := by
  intro js
  induction js with
  | nil => intro st _ hst; simpa [innerApprox] using hst
  | cons j rest ih =>
    intro st hjs hst
    simp only [innerApprox]
    split
    · exact hst
    · obtain ⟨hij, hjlen, hfile⟩ := hjs j (List.mem_cons_self j rest)
      split
      · refine ih _ (fun k hk => hjs k (List.mem_cons_of_mem j hk)) ?_
        intro d hd
        rcases List.mem_append.mp hd with h | h
        · exact hst d h
        · rw [List.mem_singleton] at h
          subst h
          exact ⟨i, j, _, _, _, hij, getD_eq_some blocks i hi,
            getD_eq_some blocks j hjlen, hfile.symm, rfl⟩
      · exact ih _ (fun k hk => hjs k (List.mem_cons_of_mem j hk)) hst

theorem innerExact_good (simScore : String → String → Rat)
    (options : DetectionOptions) (blocks : List CodeBlock)
    (bt : List (List String)) (i : Nat) (hi : i < blocks.length) :
    ∀ (js : List Nat) (st : RunState),
      (∀ j ∈ js, i < j ∧ j < blocks.length) →
      (∀ d ∈ st.duplicates, GoodDup blocks d) →
      ∀ d ∈ (innerExact simScore options blocks bt i js st).duplicates,
        GoodDup blocks d := by
  intro js
  induction js with
  | nil => intro st _ hst; simpa [innerExact] using hst
  | cons j rest ih =>
    intro st hjs hst
    simp only [innerExact]
    split
    · exact hst
    · obtain ⟨hij, hjlen⟩ := hjs j (List.mem_cons_self j rest)
      split
      · exact ih _ (fun k hk => hjs k (List.mem_cons_of_mem j hk)) hst
      · split
        · refine ih _ (fun k hk => hjs k (List.mem_cons_of_mem j hk)) ?_
          intro d hd
          rcases List.mem_append.mp hd with h | h
          · exact hst d h
          · rw [List.mem_singleton] at h
            subst h
            refine ⟨i, j, _, _, _, hij, getD_eq_some blocks i hi,
              getD_eq_some blocks j hjlen, ?_, rfl⟩
            assumption
        · exact ih _ (fun k hk => hjs k (List.mem_cons_of_mem j hk)) hst

theorem outerLoop_good (simScore : String → String → Rat)
    (options : DetectionOptions) (blocks : List CodeBlock) :
    ∀ (is : List Nat) (st : RunState),
      (∀ i ∈ is, i < blocks.length) →
      (∀ d ∈ st.duplicates, GoodDup blocks d) →
      ∀ d ∈ (outerLoop simScore options blocks (blockTokensOf blocks) is st).duplicates,
        GoodDup blocks d := by
  intro is
  induction is with
  | nil => intro st _ hst; simpa [outerLoop] using hst
  | cons i rest ih =>
    intro st his hst
    have hi : i < blocks.length := his i (List.mem_cons_self i rest)
    simp only [outerLoop]
    split
    · exact hst
    · refine ih _ (fun k hk => his k (List.mem_cons_of_mem i hk)) ?_
      split
      · refine innerApprox_good simScore options blocks _ i hi _ st ?_ hst
        intro j hj
        have h := candidatesOf_mem options blocks (blockTokensOf blocks) i j hj
        have hlen : (blockTokensOf blocks).length = blocks.length := by
          simp [blockTokensOf]
        exact ⟨h.1, hlen ▸ h.2.1, h.2.2⟩
      · refine innerExact_good simScore options blocks _ i hi _ st ?_ hst
        intro j hj
        have h := List.mem_range'.mp hj
        omega

/-- Every returned match comes from a forward cross-file pair of retained
blocks via `mkPattern`. -/
theorem detect_mem_structure (simScore : String → String → Rat) (est : String → Nat)
    (files : List FileContent) (options : DetectionOptions) :
    ∀ d ∈ detectDuplicatePatterns simScore est files options,
      GoodDup (retainedBlocksOf est files options) d := by
  intro d hd
  unfold detectDuplicatePatterns at hd
  rw [mem_jsSort] at hd
  unfold detectRun at hd
  exact outerLoop_good simScore options (retainedBlocksOf est files options)
    (List.range (retainedBlocksOf est files options).length) _
    (fun i hi => List.mem_range.mp hi) (by simp) d hd

/-! ### C1 : no match pairs two locations from the same file -/

/-- C1: for every list of input files and every configuration, every
`DuplicatePattern` returned by `detectDuplicatePatterns` has `file1`
different from `file2` — no match ever pairs two locations from the same
file, in both approximate and exact pairing modes. -/
theorem c1_no_same_file_match (simScore : String → String → Rat)
    (est : String → Nat) (files : List FileContent) (options : DetectionOptions) :
    ∀ d ∈ detectDuplicatePatterns simScore est files options,
      d.file1 ≠ d.file2 := by
  intro d hd
  obtain ⟨i, j, b1, b2, s, hij, h1, h2, hfile, rfl⟩ :=
    detect_mem_structure simScore est files options d hd
  simpa [mkPattern] using hfile

theorem c1_witness :
    dupFirst ∈ detectDuplicatePatterns simZero estLen filesPair optsPlain ∧
    dupFirst.file1 ≠ dupFirst.file2 :=
  ⟨by decide,
    c1_no_same_file_match simZero estLen filesPair optsPlain dupFirst (by decide)⟩

/-! ### C4 : which block the match's patternType and tokenCost come from -/

/-- C4 (amended): for every match recorded from a scored pair `(i, j)` with
`i < j`, `patternType` (and `linesOfCode`) come from block `i`, the first
block of the pair, but `tokenCost` is the SUM of both blocks' token costs,
not the first block's token cost. -/
theorem c4_fields_from_pair (simScore : String → String → Rat)
    (est : String → Nat) (files : List FileContent) (options : DetectionOptions) :
    ∀ d ∈ detectDuplicatePatterns simScore est files options,
      ∃ (i j : Nat) (b1 b2 : CodeBlock),
        i < j ∧ (retainedBlocksOf est files options)[i]? = some b1 ∧
        (retainedBlocksOf est files options)[j]? = some b2 ∧
        d.patternType = b1.patternType ∧
        d.tokenCost = b1.tokenCost + b2.tokenCost ∧
        d.linesOfCode = b1.linesOfCode := by
  intro d hd
  obtain ⟨i, j, b1, b2, s, hij, h1, h2, hfile, rfl⟩ :=
    detect_mem_structure simScore est files options d hd
  exact ⟨i, j, b1, b2, hij, h1, h2, rfl, rfl, rfl⟩

/-- C4 counterexample: on `filesPair` with the length estimator, the single
match has `tokenCost = 36`, the sum of the two blocks' costs `18 + 18` —
not the first block's `18` as the claim states. -/
theorem c4_counterexample :
    (detectDuplicatePatterns simZero estLen filesPair optsPlain).map
      (fun d => d.tokenCost) = [36] ∧
    (retainedBlocksOf estLen filesPair optsPlain).map
      (fun b => b.tokenCost) = [18, 18] ∧ (36 : Nat) ≠ 18 := by
  refine ⟨by decide, by decide, by decide⟩

theorem c4_witness :
    ∃ (i j : Nat) (b1 b2 : CodeBlock),
      i < j ∧ (retainedBlocksOf estLen filesPair optsPlain)[i]? = some b1 ∧
      (retainedBlocksOf estLen filesPair optsPlain)[j]? = some b2 ∧
      dupFirst.patternType = b1.patternType ∧
      dupFirst.tokenCost = b1.tokenCost + b2.tokenCost ∧
      dupFirst.linesOfCode = b1.linesOfCode :=
  c4_fields_from_pair simZero estLen filesPair optsPlain dupFirst (by decide)

/-! ### C10 : the snippet comes from the first block -/

/-- C10: the snippet of every returned match equals the first at most five
lines of the lower-index block's raw content joined with newlines, followed
by a newline and `...` — never anything derived from the second block. -/
theorem c10_snippet_from_first_block (simScore : String → String → Rat)
    (est : String → Nat) (files : List FileContent) (options : DetectionOptions) :
    ∀ d ∈ detectDuplicatePatterns simScore est files options,
      ∃ (i j : Nat) (b1 b2 : CodeBlock),
        i < j ∧ (retainedBlocksOf est files options)[i]? = some b1 ∧
        (retainedBlocksOf est files options)[j]? = some b2 ∧
        d.snippet = String.mk (joinNl ((splitOnNl b1.content.data).take 5) ++
          String.data ("\n...")) := by
  intro d hd
  obtain ⟨i, j, b1, b2, s, hij, h1, h2, hfile, rfl⟩ :=
    detect_mem_structure simScore est files options d hd
  exact ⟨i, j, b1, b2, hij, h1, h2, rfl⟩

theorem c10_witness :
    ∃ (i j : Nat) (b1 b2 : CodeBlock),
      i < j ∧ (retainedBlocksOf estLen filesPair optsPlain)[i]? = some b1 ∧
      (retainedBlocksOf estLen filesPair optsPlain)[j]? = some b2 ∧
      dupFirst.snippet = String.mk (joinNl ((splitOnNl b1.content.data).take 5) ++
        String.data ("\n...")) :=
  c10_snippet_from_first_block simZero estLen filesPair optsPlain dupFirst (by decide)

/-! ### C2 : `maxComparisons = 0` -/

theorem budgetHit_zero (p : Nat) : budgetHit 0 p = false := by
  simp [budgetHit]

theorem innerApprox_zero (simScore : String → String → Rat)
    (options : DetectionOptions) (blocks : List CodeBlock)
    (bt : List (List String)) (i : Nat) (h : options.maxComparisons = 0) :
    ∀ (js : List Nat) (st : RunState),
      innerApprox simScore options blocks bt i js st =
        innerApproxNB simScore options blocks bt i js st := by
  intro js
  induction js with
  | nil => intro st; rfl
  | cons j rest ih =>
    intro st
    simp only [innerApprox, innerApproxNB, h, budgetHit_zero, Bool.false_eq_true,
      if_false]
    split
    · exact ih _
    · exact ih _

theorem innerExact_zero (simScore : String → String → Rat)
    (options : DetectionOptions) (blocks : List CodeBlock)
    (bt : List (List String)) (i : Nat) (h : options.maxComparisons = 0) :
    ∀ (js : List Nat) (st : RunState),
      innerExact simScore options blocks bt i js st =
        innerExactNB simScore options blocks bt i js st := by
  intro js
  induction js with
  | nil => intro st; rfl
  | cons j rest ih =>
    intro st
    simp only [innerExact, innerExactNB, h, budgetHit_zero, Bool.false_eq_true,
      if_false]
    split
    · exact ih _
    · split
      · exact ih _
      · exact ih _

theorem outerLoop_zero (simScore : String → String → Rat)
    (options : DetectionOptions) (blocks : List CodeBlock)
    (bt : List (List String)) (h : options.maxComparisons = 0) :
    ∀ (is : List Nat) (st : RunState),
      outerLoop simScore options blocks bt is st =
        outerLoopNB simScore options blocks bt is st := by
  intro is
  induction is with
  | nil => intro st; rfl
  | cons i rest ih =>
    intro st
    simp only [outerLoop, outerLoopNB, h, budgetHit_zero, Bool.false_eq_true,
      if_false]
    rw [innerApprox_zero simScore options blocks bt i h,
      innerExact_zero simScore options blocks bt i h, ih]

/-- C2 (amended): setting `maxComparisons` to `0` does not force an empty
result; it disables the comparison budget entirely (the JS guard
`maxComparisons && …` is falsy at `0`), so the detector behaves exactly
like the unbudgeted reference `detectNoBudget`. -/
theorem c2_zero_budget_disabled (simScore : String → String → Rat)
    (est : String → Nat) (files : List FileContent) (options : DetectionOptions)
    (h : options.maxComparisons = 0) :
    detectDuplicatePatterns simScore est files options =
      detectNoBudget simScore est files options := by
  unfold detectDuplicatePatterns detectNoBudget detectRun
  rw [outerLoop_zero _ _ _ _ h]

/-- C2 counterexample: a two-file input on which `maxComparisons = 0`
produces one match, not zero. -/
theorem c2_counterexample :
    optsZero.maxComparisons = 0 ∧
    (detectDuplicatePatterns simZero estLen filesPair optsZero).length = 1 := by
  refine ⟨rfl, by decide⟩

theorem c2_witness :
    optsZero.maxComparisons = 0 ∧
    detectDuplicatePatterns simZero estLen filesPair optsZero =
      detectNoBudget simZero estLen filesPair optsZero :=
  ⟨rfl, c2_zero_budget_disabled simZero estLen filesPair optsZero rfl⟩

/-! ### C3 : the extractor's line-count invariant -/

/-- C3 (amended): every block emitted by `extractCodeBlocks` consists of at
least `minLines` ACCUMULATED RAW lines (its content joins exactly those
lines); `linesOfCode` counts only the non-blank, non-`//` lines among them
and can therefore be smaller than `minLines`. -/
theorem c3_raw_line_bound (content : String) (minLines : Nat) :
    ∀ b ∈ extractCodeBlocks content minLines,
      ∃ ls : List (List Char), ls ≠ [] ∧ minLines ≤ ls.length ∧
        b.content = String.mk (joinNl ls) ∧
        b.linesOfCode = (ls.filter locLine).length := by
  suffices h : ∀ (lines : List (List Char)) (i : Nat) (curr : List (List Char))
      (bs : Nat) (depth : Int) (inF : Bool) (blocks : List RawBlock),
      (∀ b ∈ blocks, ∃ ls : List (List Char), ls ≠ [] ∧ minLines ≤ ls.length ∧
        b.content = String.mk (joinNl ls) ∧
        b.linesOfCode = (ls.filter locLine).length) →
      ∀ b ∈ extractLoop minLines lines i curr bs depth inF blocks,
        ∃ ls : List (List Char), ls ≠ [] ∧ minLines ≤ ls.length ∧
          b.content = String.mk (joinNl ls) ∧
          b.linesOfCode = (ls.filter locLine).length by
    exact h _ 0 [] 0 0 false [] (by simp)
  intro lines
  induction lines with
  | nil => intro i curr bs depth inF blocks hblocks; simpa [extractLoop] using hblocks
  | cons line rest ih =>
    intro i curr bs depth inF blocks hblocks b hb
    have step : ∀ (i2 : Nat) (curr2 : List (List Char)) (bs2 : Nat) (inF2 : Bool)
        (blocks2 : List RawBlock),
        (∀ b2 ∈ blocks2, ∃ ls : List (List Char), ls ≠ [] ∧ minLines ≤ ls.length ∧
          b2.content = String.mk (joinNl ls) ∧
          b2.linesOfCode = (ls.filter locLine).length) →
        b ∈ extractLoop minLines rest i2 curr2 bs2 (depth + lineBraceDelta line)
          inF2 blocks2 →
        ∃ ls : List (List Char), ls ≠ [] ∧ minLines ≤ ls.length ∧
          b.content = String.mk (joinNl ls) ∧
          b.linesOfCode = (ls.filter locLine).length := by
      intro i2 curr2 bs2 inF2 blocks2 h2 hmem
      exact ih i2 curr2 bs2 (depth + lineBraceDelta line) inF2 blocks2 h2 b hmem
    simp only [extractLoop] at hb
    by_cases hof : (inF || !inF && isFunctionStart (jsTrimList line)) = true
    · simp only [hof, if_true, true_and] at hb
      by_cases hemit : depth + lineBraceDelta line = 0 ∧
          minLines ≤ (curr ++ [line]).length
      · rw [if_pos hemit] at hb
        refine step _ _ _ _ _ ?_ hb
        intro b2 hb2
        rcases List.mem_append.mp hb2 with hmem | hmem
        · exact hblocks b2 hmem
        · rw [List.mem_singleton] at hmem
          subst hmem
          exact ⟨curr ++ [line], by simp, hemit.2, rfl, rfl⟩
      · rw [if_neg hemit] at hb
        split at hb
        · exact step _ _ _ _ _ hblocks hb
        · exact step _ _ _ _ _ hblocks hb
    · rw [if_neg (fun hc => hof hc.1), if_neg (fun hc => hof hc.1)] at hb
      exact step _ _ _ _ _ hblocks hb

/-- C3 counterexample: with `minLines = 3`, a function whose three raw
lines include one blank line is emitted with `linesOfCode = 2 < 3`. -/
theorem c3_counterexample :
    ((extractCodeBlocks srcBlank 3).map (fun b => b.linesOfCode)) = [2] ∧
    ¬ (3 : Nat) ≤ 2 := by
  refine ⟨by decide, by decide⟩

theorem c3_witness :
    ∃ ls : List (List Char), ls ≠ [] ∧ 3 ≤ ls.length ∧
      ((extractCodeBlocks srcBlank 3).getD 0 default).content =
        String.mk (joinNl ls) ∧
      ((extractCodeBlocks srcBlank 3).getD 0 default).linesOfCode =
        (ls.filter locLine).length :=
  c3_raw_line_bound srcBlank 3 _ (by decide)

/-! ### C6 : what consumes the comparison budget in exact mode -/

theorem innerExact_processed (simScore : String → String → Rat)
    (options : DetectionOptions) (blocks : List CodeBlock)
    (bt : List (List String)) (i : Nat) :
    ∀ (js : List Nat) (st : RunState),
      (options.maxComparisons = 0 ∨
        st.processed + js.length ≤ options.maxComparisons) →
      (innerExact simScore options blocks bt i js st).processed =
        st.processed + js.length := by
  intro js
  induction js with
  | nil => intro st _; simp [innerExact]
  | cons j rest ih =>
    intro st hbud
    have hb : budgetHit options.maxComparisons st.processed = false := by
      rcases hbud with h | h
      · simp [budgetHit, h]
      · have : ¬ (options.maxComparisons ≤ st.processed) := by
          simp only [List.length_cons] at h
          omega
        simp [budgetHit, this]
    have harg : options.maxComparisons = 0 ∨
        st.processed + 1 + rest.length ≤ options.maxComparisons := by
      rcases hbud with h | h
      · exact Or.inl h
      · right
        simp only [List.length_cons] at h
        omega
    simp only [innerExact, hb, Bool.false_eq_true, if_false]
    split
    · rw [ih _ harg]
      simp only [List.length_cons]
      omega
    · split
      · rw [ih _ harg]
        simp only [List.length_cons]
        omega
      · rw [ih _ harg]
        simp only [List.length_cons]
        omega

theorem outerLoop_processed (simScore : String → String → Rat)
    (options : DetectionOptions) (blocks : List CodeBlock)
    (bt : List (List String)) (hap : options.approx = false) :
    ∀ (is : List Nat) (st : RunState),
      (options.maxComparisons = 0 ∨
        st.processed + pairsFor blocks.length is ≤ options.maxComparisons) →
      (outerLoop simScore options blocks bt is st).processed =
        st.processed + pairsFor blocks.length is := by
  intro is
  induction is with
  | nil => intro st _; simp [outerLoop, pairsFor]
  | cons i rest ih =>
    intro st hbud
    have hpf : pairsFor blocks.length (i :: rest) =
        (blocks.length - (i + 1)) + pairsFor blocks.length rest := by
      simp [pairsFor]
    by_cases hb : budgetHit options.maxComparisons st.processed = true
    · rcases hbud with h | h
      · simp [budgetHit, h] at hb
      · have h1 : options.maxComparisons ≤ st.processed := by
          by_contra hcon
          simp [budgetHit, hcon] at hb
        have h0 : pairsFor blocks.length (i :: rest) = 0 := by omega
        simp only [outerLoop, hb, if_true, h0]
        omega
    · simp only [outerLoop, hb, Bool.false_eq_true, if_false, hap]
      have hlen : (List.range' (i + 1) (blocks.length - (i + 1))).length =
          blocks.length - (i + 1) := List.length_range' _ _ _
      have hinner : (innerExact simScore options blocks bt i
          (List.range' (i + 1) (blocks.length - (i + 1))) st).processed =
          st.processed + (blocks.length - (i + 1)) := by
        rw [innerExact_processed simScore options blocks bt i _ st ?_, hlen]
        rcases hbud with h | h
        · exact Or.inl h
        · right
          rw [hlen]
          omega
      rw [ih _ ?_]
      · rw [hinner, hpf]
        omega
      · rcases hbud with h | h
        · exact Or.inl h
        · right
          rw [hinner]
          omega

theorem pairsFor_range (n : Nat) : pairsFor n (List.range n) = n * (n - 1) / 2 := by
  have h1 : pairsFor n (List.range n) = ∑ i ∈ Finset.range n, (n - (i + 1)) := rfl
  have h3 : ∑ i ∈ Finset.range n, (n - (i + 1)) =
      ∑ i ∈ Finset.range n, ((fun j => j) (n - 1 - i)) := by
    refine Finset.sum_congr rfl ?_
    intro i _
    show n - (i + 1) = n - 1 - i
    omega
  rw [h1, h3, Finset.sum_range_reflect (fun i => i) n]
  exact Finset.sum_range_id n

/-- C6 (amended): with `approx = false` and the budget not binding, the
comparison counter ends at exactly `n * (n-1) / 2` where `n` is the number
of retained blocks: EVERY forward pair `(i, j)`, `i < j`, consumes one
budget unit, including same-file pairs, because the counter is incremented
before the same-file skip. -/
theorem c6_exact_mode_budget_units (simScore : String → String → Rat)
    (est : String → Nat) (files : List FileContent) (options : DetectionOptions)
    (hap : options.approx = false)
    (hbud : options.maxComparisons = 0 ∨
      (retainedBlocksOf est files options).length *
        ((retainedBlocksOf est files options).length - 1) / 2 ≤
        options.maxComparisons) :
    (detectRun simScore est files options).processed =
      (retainedBlocksOf est files options).length *
        ((retainedBlocksOf est files options).length - 1) / 2 := by
  have hside : options.maxComparisons = 0 ∨
      (0 : Nat) + pairsFor (retainedBlocksOf est files options).length
        (List.range (retainedBlocksOf est files options).length) ≤
        options.maxComparisons := by
    rcases hbud with h | h
    · exact Or.inl h
    · right
      rw [pairsFor_range]
      omega
  have h2 := outerLoop_processed simScore options (retainedBlocksOf est files options)
    (blockTokensOf (retainedBlocksOf est files options)) hap
    (List.range (retainedBlocksOf est files options).length)
    { duplicates := [], processed := 0, exhausted := false } hside
  unfold detectRun
  rw [h2, pairsFor_range]
  exact Nat.zero_add _

/-- C6 counterexample: on two files of ten blocks each (`n = 20`, budget
and block cap not binding), the run consumes `190 = 20*19/2` budget units,
not the `100` cross-file pairs the claim states: the 90 same-file pairs
also consume budget. -/
theorem c6_counterexample :
    (retainedBlocksOf estLen filesTen optsTen).length = 20 ∧
    (detectRun simZero estLen filesTen optsTen).processed = 190 ∧
    (190 : Nat) ≠ 100 := by
  refine ⟨by decide, ?_, by decide⟩
  have h := c6_exact_mode_budget_units simZero estLen filesTen optsTen rfl
    (Or.inr (by decide))
  rw [h]
  decide

theorem c6_witness :
    (detectRun simZero estLen filesTen optsTen).processed =
      (retainedBlocksOf estLen filesTen optsTen).length *
        ((retainedBlocksOf estLen filesTen optsTen).length - 1) / 2 :=
  c6_exact_mode_budget_units simZero estLen filesTen optsTen rfl
    (Or.inr (by decide))

/-! ### C8 : the final sort order -/

theorem enumLE_fst {α : Type} (le : α → α → Bool) (a b : Nat × α)
    (h : List.enumLE le a b = true) : le a.2 b.2 = true := by
  unfold List.enumLE at h
  split at h
  · assumption
  · exact absurd h (by simp)

/-- Output of the stable JS sort is pairwise ordered by the comparator,
provided the comparator is consistent (transitive and total). -/
theorem jsSort_pairwise {α : Type} (le : α → α → Bool)
    (htrans : ∀ a b c, le a b = true → le b c = true → le a c = true)
    (htotal : ∀ a b, (le a b || le b a) = true) (l : List α) :
    (jsSort le l).Pairwise (fun a b => le a b = true) := by
  unfold jsSort
  rw [List.pairwise_map]
  haveI : IsTotal (Nat × α) (fun a b => List.enumLE le a b = true) :=
    ⟨fun a b => by
      have h := @List.enumLE_total _ le htotal a b
      rwa [Bool.or_eq_true] at h⟩
  haveI : IsTrans (Nat × α) (fun a b => List.enumLE le a b = true) :=
    ⟨fun a b c hab hbc => @List.enumLE_trans _ le htrans a b c hab hbc⟩
  have hs := List.sorted_insertionSort (fun a b => List.enumLE le a b = true) l.enum
  exact hs.imp (fun h => enumLE_fst le _ _ h)

theorem dupLE_trans (a b c : DuplicatePattern) (hab : dupLE a b = true)
    (hbc : dupLE b c = true) : dupLE a c = true := by
  simp only [dupLE, Bool.or_eq_true, Bool.and_eq_true, decide_eq_true_eq] at *
  rcases hab with h1 | ⟨h1, h2⟩
  · rcases hbc with h3 | ⟨h3, h4⟩
    · exact Or.inl (lt_trans h3 h1)
    · exact Or.inl (lt_of_le_of_lt (le_of_eq h3) h1)
  · rcases hbc with h3 | ⟨h3, h4⟩
    · exact Or.inl (lt_of_lt_of_le h3 (le_of_eq h1))
    · exact Or.inr ⟨h3.trans h1, h4.trans h2⟩

theorem dupLE_total (a b : DuplicatePattern) : (dupLE a b || dupLE b a) = true := by
  simp only [dupLE, Bool.or_eq_true, Bool.and_eq_true, decide_eq_true_eq]
  rcases lt_trichotomy a.similarity b.similarity with h | h | h
  · exact Or.inr (Or.inl h)
  · rcases Nat.le_total b.tokenCost a.tokenCost with hc | hc
    · exact Or.inl (Or.inr ⟨h.symm, hc⟩)
    · exact Or.inr (Or.inr ⟨h, hc⟩)
  · exact Or.inl (Or.inl h)

/-- C8: the list returned by `detectDuplicatePatterns` is always sorted by
similarity descending, and among matches of equal similarity, by combined
token cost descending. -/
theorem c8_sorted_by_similarity_then_cost (simScore : String → String → Rat)
    (est : String → Nat) (files : List FileContent) (options : DetectionOptions) :
    (detectDuplicatePatterns simScore est files options).Pairwise
      (fun a b => b.similarity < a.similarity ∨
        (a.similarity = b.similarity ∧ b.tokenCost ≤ a.tokenCost)) := by
  unfold detectDuplicatePatterns
  have h := jsSort_pairwise dupLE dupLE_trans dupLE_total
    (detectRun simScore est files options).duplicates
  refine h.imp ?_
  intro a b hab
  simp only [dupLE, Bool.or_eq_true, Bool.and_eq_true, decide_eq_true_eq] at hab
  rcases hab with h1 | ⟨h1, h2⟩
  · exact Or.inl h1
  · exact Or.inr ⟨h1.symm, h2⟩

/-! ### C5 : the block-cap truncation -/

theorem blockLE_trans (a b c : CodeBlock) (hab : blockLE a b = true)
    (hbc : blockLE b c = true) : blockLE a c = true := by
  simp only [blockLE, decide_eq_true_eq] at *
  omega

theorem blockLE_total (a b : CodeBlock) : (blockLE a b || blockLE b a) = true := by
  simp only [blockLE, Bool.or_eq_true, decide_eq_true_eq]
  omega

/-- C5: whenever more blocks are extracted than `maxBlocks`, the retained
list (a) has length exactly `maxBlocks`, (b) is ordered by `linesOfCode`
descending, (c) carries original extraction indices that strictly increase
within equal `linesOfCode` (ties keep extraction order), and (d) together
with the dropped blocks is a permutation of all blocks, every dropped
block's `linesOfCode` being at most every retained one's — i.e. exactly the
`maxBlocks` largest blocks are kept. -/
theorem c5_cap_keeps_largest_blocks (est : String → Nat)
    (files : List FileContent) (options : DetectionOptions)
    (h : options.maxBlocks < (allBlocksOf est files options.minLines).length) :
    (retainedBlocksOf est files options).length = options.maxBlocks ∧
    (retainedBlocksOf est files options).Pairwise
      (fun a b => b.linesOfCode ≤ a.linesOfCode) ∧
    ∃ re : List (Nat × CodeBlock),
      re.map Prod.snd = retainedBlocksOf est files options ∧
      (∀ p ∈ re, (allBlocksOf est files options.minLines)[p.1]? = some p.2) ∧
      re.Pairwise (fun x y => x.2.linesOfCode = y.2.linesOfCode → x.1 < y.1) ∧
      ∃ dropped : List CodeBlock,
        List.Perm (retainedBlocksOf est files options ++ dropped)
          (allBlocksOf est files options.minLines) ∧
        ∀ a ∈ retainedBlocksOf est files options, ∀ b ∈ dropped,
          b.linesOfCode ≤ a.linesOfCode := by
  have hret : retainedBlocksOf est files options =
      (jsSort blockLE (allBlocksOf est files options.minLines)).take
        options.maxBlocks := by
    simp only [retainedBlocksOf]
    rw [if_pos h]
  set all := allBlocksOf est files options.minLines with hall
  set rel := fun a b : Nat × CodeBlock => List.enumLE blockLE a b = true with hrel
  haveI : IsTotal (Nat × CodeBlock) rel := ⟨fun a b => by
    have hh := @List.enumLE_total _ blockLE blockLE_total a b
    rwa [Bool.or_eq_true] at hh⟩
  haveI : IsTrans (Nat × CodeBlock) rel := ⟨fun a b c hab hbc =>
    @List.enumLE_trans _ blockLE blockLE_trans a b c hab hbc⟩
  set se := all.enum.insertionSort rel with hse
  have hsorted : se.Pairwise rel := List.sorted_insertionSort rel all.enum
  have hperm : List.Perm se all.enum := List.perm_insertionSort rel all.enum
  have hjs : jsSort blockLE all = se.map Prod.snd := rfl
  have hlen_se : se.length = all.length := by
    rw [hperm.length_eq, List.enum_length]
  have htake := List.take_append_drop options.maxBlocks se
  refine ⟨?_, ?_, ?_⟩
  · rw [hret, hjs, ← List.map_take, List.length_map, List.length_take, hlen_se]
    omega
  · rw [hret, hjs, ← List.map_take, List.pairwise_map]
    refine (List.Pairwise.sublist (List.take_sublist _ _) hsorted).imp ?_
    intro a b hab
    have h2 := enumLE_fst blockLE a b hab
    simpa [blockLE] using h2
  refine ⟨se.take options.maxBlocks, ?_, ?_, ?_,
    (se.drop options.maxBlocks).map Prod.snd, ?_, ?_⟩
  · rw [hret, hjs, List.map_take]
  · intro p hp
    have hmem : p ∈ all.enum := hperm.subset (List.take_subset _ _ hp)
    exact List.mem_enum_iff_getElem?.mp hmem
  · have hnd : (se.map Prod.fst).Nodup :=
      ((hperm.map Prod.fst).nodup_iff).mpr (List.nodup_enum_map_fst all)
    have hndp : se.Pairwise (fun x y : Nat × CodeBlock => x.1 ≠ y.1) :=
      List.pairwise_map.mp hnd
    have hcomb := hsorted.and hndp
    refine (List.Pairwise.sublist (List.take_sublist _ _) hcomb).imp ?_
    intro x y hxy heq
    obtain ⟨hr, hne⟩ := hxy
    have hx2 : blockLE x.2 y.2 = true := by
      simp [blockLE, heq]
    have hy2 : blockLE y.2 x.2 = true := by
      simp [blockLE, heq]
    rw [hrel] at hr
    unfold List.enumLE at hr
    rw [hx2, hy2] at hr
    simp only [if_true, decide_eq_true_eq] at hr
    omega
  · rw [hret, hjs, ← List.map_take]
    have hsplit : (se.take options.maxBlocks).map Prod.snd ++
        (se.drop options.maxBlocks).map Prod.snd = se.map Prod.snd := by
      rw [← List.map_append, htake]
    rw [hsplit]
    have h2 := hperm.map Prod.snd
    rwa [List.enum_map_snd] at h2
  · intro a ha b hb
    rw [hret, hjs, ← List.map_take] at ha
    rw [List.mem_map] at ha hb
    obtain ⟨x, hx, rfl⟩ := ha
    obtain ⟨y, hy, rfl⟩ := hb
    have hsorted2 : (se.take options.maxBlocks ++
        se.drop options.maxBlocks).Pairwise rel := by
      rwa [htake]
    have hsp := List.pairwise_append.mp hsorted2
    have hr := hsp.2.2 x hx y hy
    have h2 := enumLE_fst blockLE x y hr
    simpa [blockLE] using h2

theorem c5_witness :
    (retainedBlocksOf estLen filesPair optsCap).length = optsCap.maxBlocks ∧
    (retainedBlocksOf estLen filesPair optsCap).Pairwise
      (fun a b => b.linesOfCode ≤ a.linesOfCode) ∧
    ∃ re : List (Nat × CodeBlock),
      re.map Prod.snd = retainedBlocksOf estLen filesPair optsCap ∧
      (∀ p ∈ re, (allBlocksOf estLen filesPair optsCap.minLines)[p.1]? = some p.2) ∧
      re.Pairwise (fun x y => x.2.linesOfCode = y.2.linesOfCode → x.1 < y.1) ∧
      ∃ dropped : List CodeBlock,
        List.Perm (retainedBlocksOf estLen filesPair optsCap ++ dropped)
          (allBlocksOf estLen filesPair optsCap.minLines) ∧
        ∀ a ∈ retainedBlocksOf estLen filesPair optsCap, ∀ b ∈ dropped,
          b.linesOfCode ≤ a.linesOfCode :=
  c5_cap_keeps_largest_blocks estLen filesPair optsCap (by decide)

/-! ### C9 : the budgeted detector refines the legacy exhaustive one -/

theorem innerExact_dups_eq_legacy (simScore : String → String → Rat)
    (options : DetectionOptions) (blocks : List CodeBlock)
    (bt : List (List String)) (i : Nat) (hfast : options.fastMode = false) :
    ∀ (js : List Nat) (st : RunState),
      (options.maxComparisons = 0 ∨
        st.processed + js.length ≤ options.maxComparisons) →
      (innerExact simScore options blocks bt i js st).duplicates =
        legacyInner simScore options.minSimilarity blocks i js st.duplicates := by
  intro js
  induction js with
  | nil => intro st _; rfl
  | cons j rest ih =>
    intro st hbud
    have hb : budgetHit options.maxComparisons st.processed = false := by
      rcases hbud with h | h
      · simp [budgetHit, h]
      · have : ¬ (options.maxComparisons ≤ st.processed) := by
          simp only [List.length_cons] at h
          omega
        simp [budgetHit, this]
    have harg : options.maxComparisons = 0 ∨
        st.processed + 1 + rest.length ≤ options.maxComparisons := by
      rcases hbud with h | h
      · exact Or.inl h
      · right
        simp only [List.length_cons] at h
        omega
    have hsim : pairSimilarity simScore options blocks bt i j =
        calculateSimilarity simScore (blocks.getD i default).content
          (blocks.getD j default).content := by
      simp [pairSimilarity, hfast]
    simp only [innerExact, legacyInner, hb, Bool.false_eq_true, if_false, hsim]
    split
    · exact ih _ harg
    · split
      · exact ih _ harg
      · exact ih _ harg

theorem legacyOuter_zero_pairs (simScore : String → String → Rat)
    (minSimilarity : Rat) (blocks : List CodeBlock) :
    ∀ (is : List Nat) (acc : List DuplicatePattern),
      pairsFor blocks.length is = 0 →
      legacyOuter simScore minSimilarity blocks is acc = acc := by
  intro is
  induction is with
  | nil => intro acc _; rfl
  | cons i rest ih =>
    intro acc h0
    have h1 : blocks.length - (i + 1) = 0 := by
      simp only [pairsFor, List.map_cons, List.sum_cons] at h0
      omega
    have h2 : pairsFor blocks.length rest = 0 := by
      simp only [pairsFor, List.map_cons, List.sum_cons] at h0
      simp only [pairsFor]
      omega
    simp only [legacyOuter, h1, List.range']
    exact ih acc h2

theorem outerLoop_dups_eq_legacy (simScore : String → String → Rat)
    (options : DetectionOptions) (blocks : List CodeBlock)
    (bt : List (List String)) (hap : options.approx = false)
    (hfast : options.fastMode = false) :
    ∀ (is : List Nat) (st : RunState),
      (options.maxComparisons = 0 ∨
        st.processed + pairsFor blocks.length is ≤ options.maxComparisons) →
      (outerLoop simScore options blocks bt is st).duplicates =
        legacyOuter simScore options.minSimilarity blocks is st.duplicates := by
  intro is
  induction is with
  | nil => intro st _; rfl
  | cons i rest ih =>
    intro st hbud
    have hpf : pairsFor blocks.length (i :: rest) =
        (blocks.length - (i + 1)) + pairsFor blocks.length rest := by
      simp [pairsFor]
    by_cases hb : budgetHit options.maxComparisons st.processed = true
    · rcases hbud with h | h
      · simp [budgetHit, h] at hb
      · have h1 : options.maxComparisons ≤ st.processed := by
          by_contra hcon
          simp [budgetHit, hcon] at hb
        have h0 : pairsFor blocks.length (i :: rest) = 0 := by omega
        simp only [outerLoop, hb, if_true]
        exact (legacyOuter_zero_pairs simScore options.minSimilarity blocks _ _ h0).symm
    · simp only [outerLoop, hb, Bool.false_eq_true, if_false, hap]
      have hlen : (List.range' (i + 1) (blocks.length - (i + 1))).length =
          blocks.length - (i + 1) := List.length_range' _ _ _
      have hslack : options.maxComparisons = 0 ∨
          st.processed + (List.range' (i + 1) (blocks.length - (i + 1))).length ≤
            options.maxComparisons := by
        rcases hbud with h | h
        · exact Or.inl h
        · right
          rw [hlen]
          omega
      have hinner : (innerExact simScore options blocks bt i
          (List.range' (i + 1) (blocks.length - (i + 1))) st).processed =
          st.processed + (blocks.length - (i + 1)) := by
        rw [innerExact_processed simScore options blocks bt i _ st hslack, hlen]
      have hdups := innerExact_dups_eq_legacy simScore options blocks bt i hfast
        (List.range' (i + 1) (blocks.length - (i + 1))) st hslack
      rw [ih _ ?_, hdups]
      · rfl
      · rcases hbud with h | h
        · exact Or.inl h
        · right
          rw [hinner]
          omega

/-- C9: with `approx = false` and `fastMode = false`, when the extracted
block count is within `maxBlocks` and the total all-pairs count is within
`maxComparisons`, the budgeted detector returns exactly the same list as
the legacy exhaustive all-pairs detector, for every file list, shared
`minSimilarity`/`minLines` configuration, similarity primitive and token
estimator. -/
theorem c9_budgeted_refines_legacy (simScore : String → String → Rat)
    (est : String → Nat) (files : List FileContent) (options : DetectionOptions)
    (hap : options.approx = false) (hfast : options.fastMode = false)
    (hblocks : (allBlocksOf est files options.minLines).length ≤ options.maxBlocks)
    (hpairs : (allBlocksOf est files options.minLines).length *
      ((allBlocksOf est files options.minLines).length - 1) / 2 ≤
      options.maxComparisons) :
    detectDuplicatePatterns simScore est files options =
      legacyDetectDuplicatePatterns simScore est files
        options.minSimilarity options.minLines := by
  have hret : retainedBlocksOf est files options =
      allBlocksOf est files options.minLines := by
    simp only [retainedBlocksOf]
    rw [if_neg (by omega)]
  unfold detectDuplicatePatterns legacyDetectDuplicatePatterns detectRun
  rw [hret]
  congr 1
  rw [outerLoop_dups_eq_legacy simScore options
    (allBlocksOf est files options.minLines) _ hap hfast _ _ ?_]
  · right
    rw [pairsFor_range]
    simpa using hpairs

theorem c9_witness :
    detectDuplicatePatterns simZero estLen filesOne optsLegacy =
      legacyDetectDuplicatePatterns simZero estLen filesOne
        optsLegacy.minSimilarity optsLegacy.minLines :=
  c9_budgeted_refines_legacy simZero estLen filesOne optsLegacy rfl rfl
    (by decide) (by decide)

/-! ### C7: the normaliser is idempotent.

Strategy: for each of the eight stages of `normalizeList` we have a Boolean
fixed-point checker (defined with the scanners above).  We prove, for each
stage, (fix) checker true implies the stage is the identity, (est) the
stage establishes its own checker, and (pres) every later stage preserves
the checker; chaining these shows every stage is the identity on a
normalised list. -/

theorem noPairAt_tail (a b c : Char) (t : List Char)
    (h : noPairAt a b (c :: t) = true) : noPairAt a b t = true := by
  match t with
  | [] => rfl
  | d :: t' =>
    simp only [noPairAt, Bool.and_eq_true] at h
    exact h.2

theorem noPairAt_cons (a b c : Char) (t : List Char)
    (hc : c = a → t.head? ≠ some b) (ht : noPairAt a b t = true) :
    noPairAt a b (c :: t) = true := by
  match t with
  | [] => rfl
  | d :: t' =>
    simp only [noPairAt, Bool.and_eq_true]
    refine ⟨?_, ht⟩
    simp only [Bool.not_eq_eq_eq_not, Bool.not_true, Bool.and_eq_false_iff]
    by_cases hca : c = a
    · right
      have := hc hca
      simp only [List.head?] at this
      simp only [decide_eq_false_iff_not]
      intro hdb
      exact this (by rw [hdb])
    · left
      simp [hca]

theorem noPairAt_head (a b c d : Char) (t : List Char)
    (h : noPairAt a b (c :: d :: t) = true) : (c = a ∧ d = b) → False := by
  rintro ⟨rfl, rfl⟩
  simp [noPairAt] at h

theorem noPairAt_of_append_left (a b : Char) :
    ∀ (w t : List Char), noPairAt a b (w ++ t) = true → noPairAt a b t = true
  | [], t, h => h
  | c :: w', t, h => noPairAt_of_append_left a b w' t (noPairAt_tail a b c _ h)

theorem noPairAt_of_append_right (a b : Char) :
    ∀ (t v : List Char), noPairAt a b (t ++ v) = true → noPairAt a b t = true
  | [], _, _ => rfl
  | [c], _, _ => rfl
  | c :: d :: t', v, h => by
    simp only [List.cons_append, noPairAt, Bool.and_eq_true] at h ⊢
    exact ⟨h.1, noPairAt_of_append_right a b (d :: t') v h.2⟩

theorem hasCloser_eq_noPair : ∀ l : List Char,
    hasCloser l = !(noPairAt '*' '/' l)
  | [] => rfl
  | [_] => rfl
  | c :: d :: rest => by
    simp only [hasCloser, noPairAt, hasCloser_eq_noPair (d :: rest)]
    cases h : (c = '*' && d = '/') <;> simp

theorem hasCloser_cons_of (c : Char) (t : List Char)
    (h : hasCloser t = true) : hasCloser (c :: t) = true := by
  match t with
  | [] => simp [hasCloser] at h
  | d :: t' =>
    simp only [hasCloser, Bool.or_eq_true]
    exact Or.inr h

theorem hasCloser_tail_false (c : Char) (t : List Char)
    (h : hasCloser (c :: t) = false) : hasCloser t = false := by
  by_cases ht : hasCloser t = true
  · rw [hasCloser_cons_of c t ht] at h
    exact absurd h (by simp)
  · simpa using ht

theorem blockOk_of_no_closer : ∀ l : List Char,
    hasCloser l = false → blockOk l = true
  | [], _ => rfl
  | [_], _ => rfl
  | c :: d :: rest, h => by
    have h2 : hasCloser (d :: rest) = false := hasCloser_tail_false c _ h
    simp only [blockOk]
    split
    · have h3 : hasCloser rest = false := hasCloser_tail_false d rest h2
      simp [h3]
    · exact blockOk_of_no_closer (d :: rest) h2

theorem blockOk_cons_ne (c : Char) (t : List Char) (hc : c ≠ '/') :
    blockOk (c :: t) = blockOk t := by
  match t with
  | [] => cases h : blockOk [] <;> simp [blockOk] at h ⊢
  | d :: t' =>
    simp only [blockOk]
    rw [if_neg (by simp [hc])]

theorem blockOk_tail (c : Char) (t : List Char)
    (h : blockOk (c :: t) = true) : blockOk t = true := by
  match t with
  | [] => rfl
  | d :: t' =>
    simp only [blockOk] at h
    split at h
    · rename_i hcd
      simp only [Bool.and_eq_true, decide_eq_true_eq] at hcd
      have hnc : hasCloser t' = false := by simpa using h
      rw [blockOk_cons_ne d t' (by rw [hcd.2]; decide)]
      exact blockOk_of_no_closer t' hnc
    · exact h

theorem blockOk_of_append_left :
    ∀ (w t : List Char), blockOk (w ++ t) = true → blockOk t = true
  | [], t, h => h
  | c :: w', t, h => blockOk_of_append_left w' t (blockOk_tail c _ h)

theorem hasCloser_append_right (v : List Char) : ∀ t : List Char,
    hasCloser t = true → hasCloser (t ++ v) = true
  | [], h => by simp [hasCloser] at h
  | [_], h => by simp [hasCloser] at h
  | c :: d :: t', h => by
    simp only [hasCloser, Bool.or_eq_true] at h
    rcases h with h | h
    · simp [List.cons_append, hasCloser, h]
    · simp only [List.cons_append, hasCloser, Bool.or_eq_true]
      exact Or.inr (hasCloser_append_right v (d :: t') h)

theorem blockOk_of_append_right (v : List Char) : ∀ t : List Char,
    blockOk (t ++ v) = true → blockOk t = true
  | [], _ => rfl
  | [_], _ => rfl
  | c :: d :: t', h => by
    simp only [List.cons_append, blockOk] at h ⊢
    split at h
    · rename_i hcd
      rw [if_pos hcd]
      simp only [Bool.not_eq_eq_eq_not, Bool.not_false] at h ⊢
      by_cases hc : hasCloser t' = true
      · have h2 : hasCloser (t' ++ v) = true := hasCloser_append_right v t' hc
        have h3 : hasCloser (t' ++ v) = false := by
          have : hasCloser (t'.append v) = false := by simpa using h
          exact this
        rw [h2] at h3
        exact absurd h3 (by simp)
      · simpa using hc
    · rename_i hcd
      rw [if_neg hcd]
      exact blockOk_of_append_right v (d :: t') h

theorem blockOk_cons (c : Char) (t : List Char)
    (hc : c = '/' → t.head? ≠ some '*') (ht : blockOk t = true) :
    blockOk (c :: t) = true := by
  match t with
  | [] => rfl
  | d :: t' =>
    simp only [blockOk]
    rw [if_neg ?_]
    · exact ht
    · simp only [Bool.and_eq_true, decide_eq_true_eq, not_and]
      intro hcs hds
      exact hc hcs (by simp [hds])

theorem contains_false_not_mem {q : Char} : ∀ l : List Char,
    l.contains q = false → q ∉ l
  | [], _ => by simp
  | c :: t, h => by
    simp only [List.contains_cons, Bool.or_eq_false_iff] at h
    simp only [List.mem_cons, not_or]
    refine ⟨?_, contains_false_not_mem t h.2⟩
    intro hq
    rw [hq] at h
    simp at h

theorem quoteOk_cons_ne (q c : Char) (t : List Char) (hc : c ≠ q) :
    quoteOk q (c :: t) = quoteOk q t := by
  rw [quoteOk]
  rw [if_neg hc]

theorem quoteOk_cons_q (q : Char) (rest : List Char) :
    quoteOk q (q :: rest) = true ↔
      ((∃ t, rest = 'S' :: 'T' :: 'R' :: q :: t ∧ quoteOk q t = true) ∨
        rest.contains q = false) := by
  rw [quoteOk]
  rw [if_pos rfl]
  constructor
  · intro h
    split at h
    · rename_i hpre
      rw [List.isPrefixOf_iff_prefix] at hpre
      rcases hpre with ⟨t, ht⟩
      refine Or.inl ⟨rest.drop 4, ?_, h⟩
      rw [← ht]
      rfl
    · exact Or.inr (by simpa using h)
  · intro h
    rcases h with ⟨t, ht, hq⟩ | hnc
    · subst ht
      rw [if_pos (by simp [List.isPrefixOf_iff_prefix, List.prefix_iff_eq_take])]
      simpa using hq
    · rw [if_neg ?_]
      · simpa using hnc
      · intro hpre
        rw [List.isPrefixOf_iff_prefix] at hpre
        have hqmem : q ∈ rest := hpre.subset (by simp)
        exact contains_false_not_mem rest hnc hqmem

theorem quoteOk_of_not_contains (q : Char) : ∀ l : List Char,
    l.contains q = false → quoteOk q l = true
  | [], _ => by rw [quoteOk]
  | c :: rest, h => by
    simp only [List.contains_cons, Bool.or_eq_false_iff] at h
    have hc : c ≠ q := by
      intro hc
      rw [hc] at h
      simp at h
    rw [quoteOk_cons_ne q c rest hc]
    exact quoteOk_of_not_contains q rest h.2

theorem quoteOk_lonely (q : Char) (t : List Char)
    (h : t.contains q = false) : quoteOk q (q :: t) = true :=
  (quoteOk_cons_q q t).mpr (Or.inr h)

theorem quoteOk_block (q : Char) (t : List Char) :
    quoteOk q (q :: 'S' :: 'T' :: 'R' :: q :: t) = true ↔ quoteOk q t = true := by
  rw [quoteOk_cons_q]
  constructor
  · rintro (⟨t2, ht, hq⟩ | hnc)
    · simp only [List.cons.injEq] at ht
      rw [ht.2.2.2.2]
      exact hq
    · simp [List.contains_cons] at hnc
  · intro h
    exact Or.inl ⟨t, rfl, h⟩

theorem quoteOk_append_nq (q : Char) : ∀ (w t : List Char),
    w.contains q = false → quoteOk q (w ++ t) = quoteOk q t
  | [], t, _ => rfl
  | c :: w', t, h => by
    simp only [List.contains_cons, Bool.or_eq_false_iff] at h
    have hc : c ≠ q := by
      intro hc
      rw [hc] at h
      simp at h
    rw [List.cons_append, quoteOk_cons_ne q c _ hc]
    exact quoteOk_append_nq q w' t h.2

theorem quoteOk_tail_ne (q c : Char) (t : List Char) (hc : c ≠ q)
    (h : quoteOk q (c :: t) = true) : quoteOk q t = true := by
  rwa [quoteOk_cons_ne q c t hc] at h

/-! Head characterisations of the scanner outputs. -/

theorem rmLineAux_true_head : ∀ (l : List Char) (c : Char),
    (rmLineAux true l).head? = some c → isLineTerm c = true
  | [], c, h => by simp [rmLineAux] at h
  | a :: rest, c, h => by
    simp only [rmLineAux] at h
    split at h
    · rename_i ha
      simp only [List.head?, Option.some.injEq] at h
      rw [← h]
      exact ha
    · exact rmLineAux_true_head rest c h

theorem rmLineAux_false_head : ∀ (l : List Char) (c : Char),
    (rmLineAux false l).head? = some c →
      l.head? = some c ∨ isLineTerm c = true
  | [], c, h => by simp [rmLineAux] at h
  | [a], c, h => by
    simp only [rmLineAux] at h
    exact Or.inl h
  | a :: d :: rest, c, h => by
    simp only [rmLineAux] at h
    split at h
    · exact Or.inr (rmLineAux_true_head rest c h)
    · simp only [List.head?, Option.some.injEq] at h ⊢
      exact Or.inl h

theorem rmBlockAux_false_head_ne (d : Char) (t : List Char) (hd : d ≠ '/') :
    (rmBlockAux false (d :: t)).head? = some d := by
  match t with
  | [] => rfl
  | e :: t2 =>
    simp only [rmBlockAux]
    rw [if_neg (by simp [hd])]
    rfl

theorem replQAux_true_head (q : Char) : ∀ (l : List Char) (c : Char),
    (replQAux q true l).head? = some c → c = q
  | [], c, h => by simp [replQAux] at h
  | a :: rest, c, h => by
    simp only [replQAux] at h
    split at h
    · simp only [List.head?, Option.some.injEq] at h
      exact h.symm
    · exact replQAux_true_head q rest c h

theorem replQAux_false_head (q : Char) : ∀ (l : List Char) (c : Char),
    (replQAux q false l).head? = some c → l.head? = some c ∨ c = q
  | [], c, h => by simp [replQAux] at h
  | a :: rest, c, h => by
    simp only [replQAux] at h
    split at h
    · rename_i ha
      split at h
      · simp only [List.head?, Option.some.injEq] at h
        exact Or.inr h.symm
      · simp only [List.head?, Option.some.injEq] at h ⊢
        exact Or.inl h
    · simp only [List.head?, Option.some.injEq] at h ⊢
      exact Or.inl h

theorem replNumAux_head : ∀ (l run : List Char) (pw : Bool) (x : Char),
    (replNumAux pw run l).head? = some x →
      (run = [] ∧ l.head? = some x) ∨ (∃ r', run = x :: r') ∨ x = 'N'
  | [], run, pw, x, h => by
    simp only [replNumAux] at h
    split at h
    · simp at h
    · split at h
      · cases run with
        | nil => simp at h
        | cons y r' =>
          simp only [List.head?, Option.some.injEq] at h
          exact Or.inr (Or.inl ⟨r', by rw [h]⟩)
      · simp only [List.head?, Option.some.injEq] at h
        exact Or.inr (Or.inr h.symm)
  | c :: rest, run, pw, x, h => by
    simp only [replNumAux] at h
    split at h
    · rcases replNumAux_head rest (run ++ [c]) pw x h with ⟨hr, _⟩ | ⟨r', hr⟩ | hn
      · simp at hr
      · cases run with
        | nil =>
          simp only [List.nil_append, List.cons.injEq] at hr
          exact Or.inl ⟨rfl, by simp [hr.1]⟩
        | cons y r2 =>
          simp only [List.cons_append, List.cons.injEq] at hr
          exact Or.inr (Or.inl ⟨r2, by rw [hr.1]⟩)
      · exact Or.inr (Or.inr hn)
    · split at h
      · rename_i hrun
        simp only [List.head?, Option.some.injEq] at h
        cases run with
        | nil => exact Or.inl ⟨rfl, by simp [h]⟩
        | cons y r' => simp at hrun
      · split at h
        · cases run with
          | nil => simp_all
          | cons y r' =>
            simp only [List.cons_append, List.head?, Option.some.injEq] at h
            exact Or.inr (Or.inl ⟨r', by rw [h]⟩)
        · simp only [List.head?, Option.some.injEq] at h
          exact Or.inr (Or.inr h.symm)

theorem collapseWSAux_true_head : ∀ (l : List Char) (c : Char),
    (collapseWSAux true l).head? = some c → isJSWhitespace c = false
  | [], c, h => by simp [collapseWSAux] at h
  | a :: rest, c, h => by
    simp only [collapseWSAux] at h
    split at h
    · rw [if_pos trivial] at h
      exact collapseWSAux_true_head rest c h
    · rename_i ha
      simp only [List.head?, Option.some.injEq] at h
      rw [← h]
      simpa using ha

theorem collapseWSAux_false_head : ∀ (l : List Char) (c : Char),
    (collapseWSAux false l).head? = some c → l.head? = some c ∨ c = ' '
  | [], c, h => by simp [collapseWSAux] at h
  | a :: rest, c, h => by
    simp only [collapseWSAux] at h
    split at h
    · rw [if_neg (by simp)] at h
      simp only [List.head?, Option.some.injEq] at h
      exact Or.inr h.symm
    · simp only [List.head?, Option.some.injEq] at h ⊢
      exact Or.inl h

/-! Stage 1 (line comments): fixed point and establishment. -/

theorem rmLine_fix : ∀ l : List Char, noDSlash l = true → rmLineAux false l = l
  | [], _ => rfl
  | [c], _ => rfl
  | c :: d :: rest, h => by
    simp only [rmLineAux]
    rw [if_neg ?_]
    · rw [rmLine_fix (d :: rest) (noPairAt_tail '/' '/' c _ h)]
    · intro hcd
      simp only [Bool.and_eq_true, decide_eq_true_eq] at hcd
      exact noPairAt_head '/' '/' c d rest h hcd

theorem rmLine_est : ∀ (m : Bool) (l : List Char), noDSlash (rmLineAux m l) = true
  | true, [] => rfl
  | true, c :: rest => by
    simp only [rmLineAux]
    split
    · rename_i hc
      refine noPairAt_cons '/' '/' c _ ?_ (rmLine_est false rest)
      intro hcs _
      rw [hcs] at hc
      exact absurd hc (by decide)
    · exact rmLine_est true rest
  | false, [] => rfl
  | false, [c] => rfl
  | false, c :: d :: rest => by
    simp only [rmLineAux]
    split
    · exact rmLine_est true rest
    · rename_i hcd
      refine noPairAt_cons '/' '/' c _ ?_ (rmLine_est false (d :: rest))
      intro hcs hh
      rcases rmLineAux_false_head (d :: rest) '/' hh with h1 | h2
      · simp only [List.head?, Option.some.injEq] at h1
        exact hcd (by simp [hcs, h1])
      · exact absurd h2 (by decide)
termination_by m l => l.length

/-! Stage 2 (block comments): fixed point, establishment, and preservation
of the stage-1 invariant. -/

theorem rmBlock_fix : ∀ l : List Char, blockOk l = true → rmBlockAux false l = l
  | [], _ => rfl
  | [c], _ => rfl
  | c :: d :: rest, h => by
    simp only [blockOk] at h
    simp only [rmBlockAux]
    split at h
    · rename_i hcd
      rw [if_pos hcd]
      rw [if_neg ?_]
      simpa using h
    · rename_i hcd
      rw [if_neg hcd]
      rw [rmBlock_fix (d :: rest) h]

theorem rmBlock_noDSlash : ∀ (m : Bool) (l : List Char),
    noDSlash l = true → noDSlash (rmBlockAux m l) = true
  | true, [], _ => rfl
  | true, [_], _ => rfl
  | true, c :: d :: rest, h => by
    have h1 := noPairAt_tail '/' '/' c _ h
    have h2 := noPairAt_tail '/' '/' d _ h1
    simp only [rmBlockAux]
    split
    · exact rmBlock_noDSlash false rest h2
    · exact rmBlock_noDSlash true (d :: rest) h1
  | false, [], _ => rfl
  | false, [_], _ => rfl
  | false, c :: d :: rest, h => by
    have h1 := noPairAt_tail '/' '/' c _ h
    simp only [rmBlockAux]
    split
    · split
      · exact rmBlock_noDSlash true rest (noPairAt_tail '/' '/' d _ h1)
      · exact h
    · refine noPairAt_cons '/' '/' c _ ?_ (rmBlock_noDSlash false (d :: rest) h1)
      intro hcs hh
      have hd : d ≠ '/' := fun hdd => noPairAt_head '/' '/' c d rest h ⟨hcs, hdd⟩
      rw [rmBlockAux_false_head_ne d rest hd] at hh
      injection hh with hh
      exact hd hh
termination_by m l => l.length

theorem rmBlock_est : ∀ (m : Bool) (l : List Char),
    noDSlash l = true → blockOk (rmBlockAux m l) = true
  | true, [], _ => rfl
  | true, [_], _ => rfl
  | true, c :: d :: rest, h => by
    have h1 := noPairAt_tail '/' '/' c _ h
    have h2 := noPairAt_tail '/' '/' d _ h1
    simp only [rmBlockAux]
    split
    · exact rmBlock_est false rest h2
    · exact rmBlock_est true (d :: rest) h1
  | false, [], _ => rfl
  | false, [_], _ => rfl
  | false, c :: d :: rest, h => by
    have h1 := noPairAt_tail '/' '/' c _ h
    have h2 := noPairAt_tail '/' '/' d _ h1
    simp only [rmBlockAux]
    split
    · rename_i hcd
      split
      · exact rmBlock_est true rest h2
      · rename_i hnc
        simp only [blockOk]
        rw [if_pos hcd]
        simpa using hnc
    · rename_i hcd
      refine blockOk_cons c _ ?_ (rmBlock_est false (d :: rest) h1)
      intro hcs hh
      have hd : d ≠ '/' := fun hdd => noPairAt_head '/' '/' c d rest h ⟨hcs, hdd⟩
      rw [rmBlockAux_false_head_ne d rest hd] at hh
      injection hh with hh
      exact hcd (by simp [hcs, hh])
termination_by m l => l.length

/-! Stages 3-5 (quote literals): fixed point and establishment, generic in
the quote character. -/

theorem contains_iff_mem (q : Char) : ∀ l : List Char,
    l.contains q = true ↔ q ∈ l
  | [] => by simp
  | c :: t => by
    simp only [List.contains_cons, Bool.or_eq_true, List.mem_cons, beq_iff_eq]
    rw [contains_iff_mem q t]

theorem replQAux_true_STR (q : Char) (hS : q ≠ 'S') (hT : q ≠ 'T')
    (hR : q ≠ 'R') (t : List Char) :
    replQAux q true ('S' :: 'T' :: 'R' :: q :: t) = q :: replQAux q false t := by
  simp only [replQAux]
  rw [if_neg (fun hh => hS hh.symm), if_neg (fun hh => hT hh.symm),
    if_neg (fun hh => hR hh.symm), if_pos trivial]

theorem replQ_fix (q : Char) (hS : q ≠ 'S') (hT : q ≠ 'T') (hR : q ≠ 'R') :
    ∀ l : List Char, quoteOk q l = true → replQAux q false l = l
  | [], _ => rfl
  | c :: rest, h => by
    simp only [replQAux]
    by_cases hc : c = q
    · rw [if_pos hc]
      subst hc
      rcases (quoteOk_cons_q c rest).mp h with ⟨t, ht, hq⟩ | hnc
      · have hlt : t.length + 4 = rest.length := by
          rw [ht]
          simp
        rw [if_pos ?_]
        · rw [ht, replQAux_true_STR c hS hT hR t, replQ_fix c hS hT hR t hq]
        · rw [contains_iff_mem, ht]
          simp
      · rw [if_neg (by simpa using hnc)]
    · rw [if_neg hc]
      rw [replQ_fix q hS hT hR rest (by rwa [quoteOk_cons_ne q c rest hc] at h)]
termination_by l => l.length
decreasing_by
  all_goals simp only [List.length_cons]
  all_goals omega

theorem replQ_true_shape (q : Char) : ∀ l : List Char, l.contains q = true →
    ∃ t2, replQAux q true l = q :: replQAux q false t2 ∧ t2.length < l.length
  | [], h => by simp at h
  | c :: rest, h => by
    simp only [replQAux]
    by_cases hc : c = q
    · rw [if_pos hc]
      exact ⟨rest, rfl, by simp⟩
    · rw [if_neg hc]
      have hr : rest.contains q = true := by
        simp only [List.contains_cons, Bool.or_eq_true, beq_iff_eq] at h
        rcases h with h | h
        · exact absurd h.symm hc
        · exact h
      rcases replQ_true_shape q rest hr with ⟨t2, ht, hlen⟩
      exact ⟨t2, ht, by simp only [List.length_cons]; omega⟩

theorem replQ_est (q : Char) : ∀ l : List Char,
    quoteOk q (replQAux q false l) = true
  | [] => by
    show quoteOk q [] = true
    rw [quoteOk]
  | c :: rest => by
    simp only [replQAux]
    by_cases hc : c = q
    · rw [if_pos hc]
      by_cases hcon : rest.contains q = true
      · rw [if_pos hcon]
        rcases replQ_true_shape q rest hcon with ⟨t2, ht, hlen⟩
        rw [ht]
        exact (quoteOk_block q _).mpr (replQ_est q t2)
      · rw [if_neg hcon]
        rw [hc]
        exact quoteOk_lonely q rest (by simpa using hcon)
    · rw [if_neg hc]
      rw [quoteOk_cons_ne q c _ hc]
      exact replQ_est q rest
termination_by l => l.length
decreasing_by
  · simp only [List.length_cons]
    omega
  · simp only [List.length_cons]
    omega

/-! Preservation of slash-star pair patterns through the replacement
stages (quotes, numbers, whitespace): the inserted texts `qSTRq`, `NUM`
and the single space contain neither `/` nor `*`, and kept characters
keep their input adjacencies. -/

theorem noPairAt_append_swap (a b : Char) : ∀ (w t t2 : List Char),
    noPairAt a b (w ++ t) = true → noPairAt a b t2 = true →
    (t2.head? = t.head? ∨ (∀ x, t2.head? = some x → x ≠ b)) →
    noPairAt a b (w ++ t2) = true
  | [], _, _, _, h2, _ => h2
  | [w0], t, t2, h, h2, hh => by
    simp only [List.singleton_append] at h ⊢
    refine noPairAt_cons a b w0 t2 ?_ h2
    intro hw0 hhead
    rcases hh with hh | hh
    · rw [hhead] at hh
      cases t with
      | nil => simp at hh
      | cons t0 ts =>
        simp only [List.head?, Option.some.injEq] at hh
        exact noPairAt_head a b w0 t0 ts h ⟨hw0, hh.symm⟩
    · exact hh b hhead rfl
  | w0 :: w1 :: w', t, t2, h, h2, hh => by
    simp only [List.cons_append, noPairAt, Bool.and_eq_true] at h ⊢
    exact ⟨h.1, noPairAt_append_swap a b (w1 :: w') t t2 h.2 h2 hh⟩

theorem noPairAt_replQ (a b q : Char) (hqa : q ≠ a) (hqb : q ≠ b)
    (hSa : ('S' : Char) ≠ a) (hTa : ('T' : Char) ≠ a)
    (hRa : ('R' : Char) ≠ a) :
    ∀ (m : Bool) (l : List Char), noPairAt a b l = true →
      noPairAt a b (replQAux q m l) = true
  | true, [], _ => rfl
  | true, c :: rest, h => by
    simp only [replQAux]
    split
    · exact noPairAt_cons a b q _ (fun h2 _ => absurd h2 hqa)
        (noPairAt_replQ a b q hqa hqb hSa hTa hRa false rest
          (noPairAt_tail a b c _ h))
    · exact noPairAt_replQ a b q hqa hqb hSa hTa hRa true rest
        (noPairAt_tail a b c _ h)
  | false, [], _ => rfl
  | false, c :: rest, h => by
    simp only [replQAux]
    split
    · split
      · refine noPairAt_cons a b q _ (fun h2 _ => absurd h2 hqa) ?_
        refine noPairAt_cons a b 'S' _ (fun h2 _ => absurd h2 hSa) ?_
        refine noPairAt_cons a b 'T' _ (fun h2 _ => absurd h2 hTa) ?_
        exact noPairAt_cons a b 'R' _ (fun h2 _ => absurd h2 hRa)
          (noPairAt_replQ a b q hqa hqb hSa hTa hRa true rest
            (noPairAt_tail a b c _ h))
      · exact h
    · refine noPairAt_cons a b c _ ?_
        (noPairAt_replQ a b q hqa hqb hSa hTa hRa false rest
          (noPairAt_tail a b c _ h))
      intro hca hh
      rcases replQAux_false_head q rest b hh with h1 | h2
      · cases rest with
        | nil => simp at h1
        | cons b2 rest2 =>
          simp only [List.head?, Option.some.injEq] at h1
          exact noPairAt_head a b c b2 rest2 h ⟨hca, h1⟩
      · exact hqb h2.symm

theorem noPairAt_replNum (a b : Char) (hNa : ('N' : Char) ≠ a)
    (hUa : ('U' : Char) ≠ a) (hMa : ('M' : Char) ≠ a)
    (hNb : ('N' : Char) ≠ b) :
    ∀ (l run : List Char) (pw : Bool), noPairAt a b (run ++ l) = true →
      noPairAt a b (replNumAux pw run l) = true
  | [], run, pw, h => by
    simp only [replNumAux]
    split
    · rfl
    · split
      · simpa using h
      · exact noPairAt_cons a b 'N' _ (fun h2 _ => absurd h2 hNa)
          (noPairAt_cons a b 'U' _ (fun h2 _ => absurd h2 hUa) rfl)
  | c :: rest, run, pw, h => by
    have hcr : noPairAt a b (c :: rest) = true := noPairAt_of_append_left a b run _ h
    simp only [replNumAux]
    split
    · refine noPairAt_replNum a b hNa hUa hMa hNb rest (run ++ [c]) pw ?_
      rwa [List.append_assoc, List.singleton_append]
    · have hkey : noPairAt a b (c :: replNumAux (isWordChar c) [] rest) = true := by
        refine noPairAt_cons a b c _ ?_
          (noPairAt_replNum a b hNa hUa hMa hNb rest [] (isWordChar c)
            (by simpa using noPairAt_tail a b c _ hcr))
        intro hca hh
        rcases replNumAux_head rest [] (isWordChar c) b hh with ⟨_, hhead⟩ | ⟨r2, hr2⟩ | hn
        · cases rest with
          | nil => simp at hhead
          | cons b2 rest2 =>
            simp only [List.head?, Option.some.injEq] at hhead
            exact noPairAt_head a b c b2 rest2 hcr ⟨hca, hhead⟩
        · simp at hr2
        · exact hNb hn.symm
      split
      · exact hkey
      · split
        · exact noPairAt_append_swap a b run (c :: rest)
            (c :: replNumAux (isWordChar c) [] rest)
            h hkey (Or.inl rfl)
        · refine noPairAt_cons a b 'N' _ (fun h2 _ => absurd h2 hNa) ?_
          refine noPairAt_cons a b 'U' _ (fun h2 _ => absurd h2 hUa) ?_
          exact noPairAt_cons a b 'M' _ (fun h2 _ => absurd h2 hMa) hkey

theorem noPairAt_collapse (a b : Char) (hsa : (' ' : Char) ≠ a)
    (hsb : (' ' : Char) ≠ b) :
    ∀ (m : Bool) (l : List Char), noPairAt a b l = true →
      noPairAt a b (collapseWSAux m l) = true
  | _, [], _ => rfl
  | m, c :: rest, h => by
    simp only [collapseWSAux]
    split
    · split
      · exact noPairAt_collapse a b hsa hsb true rest (noPairAt_tail a b c _ h)
      · exact noPairAt_cons a b ' ' _ (fun h2 _ => absurd h2 hsa)
          (noPairAt_collapse a b hsa hsb true rest (noPairAt_tail a b c _ h))
    · refine noPairAt_cons a b c _ ?_
        (noPairAt_collapse a b hsa hsb false rest (noPairAt_tail a b c _ h))
      intro hca hh
      rcases collapseWSAux_false_head rest b hh with h1 | h2
      · cases rest with
        | nil => simp at h1
        | cons b2 rest2 =>
          simp only [List.head?, Option.some.injEq] at h1
          exact noPairAt_head a b c b2 rest2 h ⟨hca, h1⟩
      · exact hsb (by rw [h2])

/-! `hasCloser` transport backwards through the replacement stages. -/

theorem hasCloser_replQ (q : Char) (hqa : q ≠ '*') (hqb : q ≠ '/')
    (m : Bool) (l : List Char) (h : hasCloser (replQAux q m l) = true) :
    hasCloser l = true := by
  by_cases hl : noPairAt '*' '/' l = true
  · have h2 := noPairAt_replQ '*' '/' q hqa hqb (by decide) (by decide)
      (by decide) m l hl
    rw [hasCloser_eq_noPair, h2] at h
    simp at h
  · have hl2 : noPairAt '*' '/' l = false := by simpa using hl
    simp [hasCloser_eq_noPair, hl2]

theorem hasCloser_replNum (l run : List Char) (pw : Bool)
    (h : hasCloser (replNumAux pw run l) = true) :
    hasCloser (run ++ l) = true := by
  by_cases hl : noPairAt '*' '/' (run ++ l) = true
  · have h2 := noPairAt_replNum '*' '/' (by decide) (by decide) (by decide)
      (by decide) l run pw hl
    rw [hasCloser_eq_noPair, h2] at h
    simp at h
  · have hl2 : noPairAt '*' '/' (run ++ l) = false := by simpa using hl
    simp [hasCloser_eq_noPair, hl2]

theorem hasCloser_collapse (m : Bool) (l : List Char)
    (h : hasCloser (collapseWSAux m l) = true) : hasCloser l = true := by
  by_cases hl : noPairAt '*' '/' l = true
  · have h2 := noPairAt_collapse '*' '/' (by decide) (by decide) m l hl
    rw [hasCloser_eq_noPair, h2] at h
    simp at h
  · have hl2 : noPairAt '*' '/' l = false := by simpa using hl
    simp [hasCloser_eq_noPair, hl2]

/-! `blockOk` preservation through the replacement stages. -/

theorem blockOk_replQ (q : Char) (hq1 : q ≠ '/') (hq2 : q ≠ '*') :
    ∀ (m : Bool) (l : List Char), blockOk l = true →
      blockOk (replQAux q m l) = true
  | true, [], _ => rfl
  | true, c :: rest, h => by
    simp only [replQAux]
    split
    · exact blockOk_cons q _ (fun hqq _ => absurd hqq hq1)
        (blockOk_replQ q hq1 hq2 false rest (blockOk_tail c _ h))
    · exact blockOk_replQ q hq1 hq2 true rest (blockOk_tail c _ h)
  | false, [], _ => rfl
  | false, c :: rest, h => by
    simp only [replQAux]
    split
    · split
      · refine blockOk_cons q _ (fun hqq _ => absurd hqq hq1) ?_
        refine blockOk_cons 'S' _ (fun hqq _ => absurd hqq (by decide)) ?_
        refine blockOk_cons 'T' _ (fun hqq _ => absurd hqq (by decide)) ?_
        exact blockOk_cons 'R' _ (fun hqq _ => absurd hqq (by decide))
          (blockOk_replQ q hq1 hq2 true rest (blockOk_tail c _ h))
      · exact h
    · by_cases hop : c = '/' ∧ rest.head? = some '*'
      · obtain ⟨hc, hh⟩ := hop
        cases rest with
        | nil => simp at hh
        | cons d rest2 =>
          simp only [List.head?, Option.some.injEq] at hh
          subst hh
          have hnc : hasCloser rest2 = false := by
            rw [hc] at h
            simp only [blockOk] at h
            rw [if_pos (by decide)] at h
            simpa using h
          have hstep : replQAux q false ('*' :: rest2) =
              '*' :: replQAux q false rest2 := by
            simp only [replQAux]
            rw [if_neg (fun hh2 => hq2 hh2.symm)]
          rw [hstep, hc]
          simp only [blockOk]
          rw [if_pos (by decide)]
          by_cases hcl : hasCloser (replQAux q false rest2) = true
          · have h2 := hasCloser_replQ q hq2 hq1 false rest2 hcl
            rw [h2] at hnc
            simp at hnc
          · simpa using hcl
      · refine blockOk_cons c _ ?_
          (blockOk_replQ q hq1 hq2 false rest (blockOk_tail c _ h))
        intro hca hh
        rcases replQAux_false_head q rest '*' hh with h1 | h2
        · exact hop ⟨hca, h1⟩
        · exact hq2 h2.symm

theorem blockOk_digits_append : ∀ (w t : List Char),
    (∀ x ∈ w, isDigitChar x = true) → blockOk (w ++ t) = blockOk t
  | [], _, _ => rfl
  | x :: w', t, hw => by
    simp only [List.cons_append]
    rw [blockOk_cons_ne x _ (fun hh => by
      have hx := hw x (by simp)
      rw [hh] at hx
      exact absurd hx (by decide))]
    exact blockOk_digits_append w' t (fun z hz => hw z (by simp [hz]))

theorem blockOk_replNum : ∀ (l run : List Char) (pw : Bool),
    (∀ x ∈ run, isDigitChar x = true) → blockOk (run ++ l) = true →
      blockOk (replNumAux pw run l) = true
  | [], run, pw, hrun, h => by
    simp only [replNumAux]
    split
    · rfl
    · split
      · rw [List.append_nil] at h
        exact h
      · decide
  | c :: rest, run, pw, hrun, h => by
    have hcr : blockOk (c :: rest) = true := by
      rw [blockOk_digits_append run _ hrun] at h
      exact h
    simp only [replNumAux]
    split
    · rename_i hdig
      refine blockOk_replNum rest (run ++ [c]) pw ?_ ?_
      · intro z hz
        rcases List.mem_append.mp hz with hz | hz
        · exact hrun z hz
        · simp only [List.mem_singleton] at hz
          rw [hz]
          exact hdig
      · rwa [List.append_assoc, List.singleton_append]
    · have hkey : blockOk (c :: replNumAux (isWordChar c) [] rest) = true := by
        by_cases hop : c = '/' ∧ rest.head? = some '*'
        · obtain ⟨hc, hh⟩ := hop
          cases rest with
          | nil => simp at hh
          | cons d rest2 =>
            simp only [List.head?, Option.some.injEq] at hh
            subst hh
            have hnc : hasCloser rest2 = false := by
              rw [hc] at hcr
              simp only [blockOk] at hcr
              rw [if_pos (by decide)] at hcr
              simpa using hcr
            have hstep : replNumAux (isWordChar c) [] ('*' :: rest2) =
                '*' :: replNumAux (isWordChar '*') [] rest2 := by
              simp only [replNumAux]
              rw [if_neg (by decide), if_pos (by decide)]
            rw [hstep, hc]
            simp only [blockOk]
            rw [if_pos (by decide)]
            by_cases hcl : hasCloser (replNumAux (isWordChar '*') [] rest2) = true
            · have h2 := hasCloser_replNum rest2 [] (isWordChar '*') hcl
              rw [List.nil_append] at h2
              rw [h2] at hnc
              simp at hnc
            · simpa using hcl
        · refine blockOk_cons c _ ?_
            (blockOk_replNum rest [] (isWordChar c) (by simp)
              (by simpa using blockOk_tail c _ hcr))
          intro hca hh
          rcases replNumAux_head rest [] (isWordChar c) '*' hh with
            ⟨_, hhead⟩ | ⟨r2, hr2⟩ | hn
          · exact hop ⟨hca, hhead⟩
          · simp at hr2
          · exact absurd hn (by decide)
      split
      · exact hkey
      · split
        · rw [blockOk_digits_append run _ hrun]
          exact hkey
        · rw [blockOk_cons_ne 'N' _ (by decide), blockOk_cons_ne 'U' _ (by decide),
            blockOk_cons_ne 'M' _ (by decide)]
          exact hkey

theorem blockOk_collapse : ∀ (m : Bool) (l : List Char), blockOk l = true →
    blockOk (collapseWSAux m l) = true
  | _, [], _ => rfl
  | m, c :: rest, h => by
    simp only [collapseWSAux]
    split
    · split
      · exact blockOk_collapse true rest (blockOk_tail c _ h)
      · rw [blockOk_cons_ne ' ' _ (by decide)]
        exact blockOk_collapse true rest (blockOk_tail c _ h)
    · by_cases hop : c = '/' ∧ rest.head? = some '*'
      · obtain ⟨hc, hh⟩ := hop
        cases rest with
        | nil => simp at hh
        | cons d rest2 =>
          simp only [List.head?, Option.some.injEq] at hh
          subst hh
          have hnc : hasCloser rest2 = false := by
            rw [hc] at h
            simp only [blockOk] at h
            rw [if_pos (by decide)] at h
            simpa using h
          have hstep : collapseWSAux false ('*' :: rest2) =
              '*' :: collapseWSAux false rest2 := by
            simp only [collapseWSAux]
            rw [if_neg (by decide)]
          rw [hstep, hc]
          simp only [blockOk]
          rw [if_pos (by decide)]
          by_cases hcl : hasCloser (collapseWSAux false rest2) = true
          · have h2 := hasCloser_collapse false rest2 hcl
            rw [h2] at hnc
            simp at hnc
          · simpa using hcl
      · refine blockOk_cons c _ ?_
          (blockOk_collapse false rest (blockOk_tail c _ h))
        intro hca hh
        rcases collapseWSAux_false_head rest '*' hh with h1 | h2
        · exact hop ⟨hca, h1⟩
        · exact absurd h2 (by decide)

/-! Character membership of the replacement-stage outputs, and one-step
unfolding lemmas. -/

theorem replQAux_mem (q : Char) : ∀ (m : Bool) (l : List Char) (x : Char),
    x ∈ replQAux q m l → x ∈ l ∨ x = q ∨ x = 'S' ∨ x = 'T' ∨ x = 'R'
  | true, [], x, h => by simp [replQAux] at h
  | true, c :: rest, x, h => by
    simp only [replQAux] at h
    split at h
    · simp only [List.mem_cons] at h
      rcases h with h | h
      · exact Or.inr (Or.inl h)
      · rcases replQAux_mem q false rest x h with h | h
        · exact Or.inl (by simp [h])
        · exact Or.inr h
    · rcases replQAux_mem q true rest x h with h | h
      · exact Or.inl (by simp [h])
      · exact Or.inr h
  | false, [], x, h => by simp [replQAux] at h
  | false, c :: rest, x, h => by
    simp only [replQAux] at h
    split at h
    · split at h
      · simp only [List.mem_cons] at h
        rcases h with h | h | h | h | h
        · exact Or.inr (Or.inl h)
        · exact Or.inr (Or.inr (Or.inl h))
        · exact Or.inr (Or.inr (Or.inr (Or.inl h)))
        · exact Or.inr (Or.inr (Or.inr (Or.inr h)))
        · rcases replQAux_mem q true rest x h with h | h
          · exact Or.inl (by simp [h])
          · exact Or.inr h
      · exact Or.inl h
    · simp only [List.mem_cons] at h
      rcases h with h | h
      · exact Or.inl (by simp [h])
      · rcases replQAux_mem q false rest x h with h | h
        · exact Or.inl (by simp [h])
        · exact Or.inr h

theorem contains_replQ (q q2 : Char) (hq : q2 ≠ q) (hS : q2 ≠ 'S')
    (hT : q2 ≠ 'T') (hR : q2 ≠ 'R') (m : Bool) (l : List Char)
    (h : l.contains q2 = false) : (replQAux q m l).contains q2 = false := by
  by_cases hc : (replQAux q m l).contains q2 = true
  · exfalso
    rcases replQAux_mem q m l q2 ((contains_iff_mem q2 _).mp hc) with
      hm | hm | hm | hm | hm
    · exact contains_false_not_mem l h hm
    · exact hq hm
    · exact hS hm
    · exact hT hm
    · exact hR hm
  · simpa using hc

theorem replQAux_false_cons_ne (q c : Char) (t : List Char) (hc : c ≠ q) :
    replQAux q false (c :: t) = c :: replQAux q false t := by
  simp only [replQAux]
  rw [if_neg hc]

theorem replQAux_true_cons_ne (q c : Char) (t : List Char) (hc : c ≠ q) :
    replQAux q true (c :: t) = replQAux q true t := by
  simp only [replQAux]
  rw [if_neg hc]

theorem replQAux_true_cons_q (q : Char) (t : List Char) :
    replQAux q true (q :: t) = q :: replQAux q false t := by
  simp only [replQAux]
  rw [if_pos trivial]

theorem replNum_flush (c : Char) (hd : isDigitChar c = false)
    (run rest : List Char) (pw : Bool) :
    replNumAux pw run (c :: rest) =
      (if run.isEmpty then []
       else if pw || isWordChar c then run else ['N', 'U', 'M']) ++
        c :: replNumAux (isWordChar c) [] rest := by
  simp only [replNumAux]
  rw [if_neg (by simp [hd])]
  by_cases hre : run.isEmpty = true
  · rw [if_pos hre, if_pos hre, List.nil_append]
  · rw [if_neg hre, if_neg hre]
    by_cases hpw : (pw || isWordChar c) = true
    · rw [if_pos hpw, if_pos hpw]
    · rw [if_neg hpw, if_neg hpw]
      rfl

theorem replNum_cons_nd (c : Char) (hd : isDigitChar c = false)
    (rest : List Char) (pw : Bool) :
    replNumAux pw [] (c :: rest) = c :: replNumAux (isWordChar c) [] rest := by
  rw [replNum_flush c hd [] rest pw]
  rfl

theorem replNumAux_mem : ∀ (l run : List Char) (pw : Bool) (x : Char),
    x ∈ replNumAux pw run l →
      x ∈ run ∨ x ∈ l ∨ x = 'N' ∨ x = 'U' ∨ x = 'M'
  | [], run, pw, x, h => by
    simp only [replNumAux] at h
    split at h
    · simp at h
    · split at h
      · exact Or.inl h
      · simp only [List.mem_cons, List.not_mem_nil, or_false] at h
        rcases h with h | h | h
        · exact Or.inr (Or.inr (Or.inl h))
        · exact Or.inr (Or.inr (Or.inr (Or.inl h)))
        · exact Or.inr (Or.inr (Or.inr (Or.inr h)))
  | c :: rest, run, pw, x, h => by
    simp only [replNumAux] at h
    split at h
    · rcases replNumAux_mem rest (run ++ [c]) pw x h with hm | hm | hm
      · rcases List.mem_append.mp hm with hm | hm
        · exact Or.inl hm
        · simp only [List.mem_singleton] at hm
          exact Or.inr (Or.inl (by simp [hm]))
      · exact Or.inr (Or.inl (by simp [hm]))
      · exact Or.inr (Or.inr hm)
    · split at h
      · simp only [List.mem_cons] at h
        rcases h with h | h
        · exact Or.inr (Or.inl (by simp [h]))
        · rcases replNumAux_mem rest [] (isWordChar c) x h with hm | hm | hm
          · simp at hm
          · exact Or.inr (Or.inl (by simp [hm]))
          · exact Or.inr (Or.inr hm)
      · split at h
        · rcases List.mem_append.mp h with hm | hm
          · exact Or.inl hm
          · simp only [List.mem_cons] at hm
            rcases hm with hm | hm
            · exact Or.inr (Or.inl (by simp [hm]))
            · rcases replNumAux_mem rest [] (isWordChar c) x hm with hm | hm | hm
              · simp at hm
              · exact Or.inr (Or.inl (by simp [hm]))
              · exact Or.inr (Or.inr hm)
        · simp only [List.mem_cons] at h
          rcases h with h | h | h | h | h
          · exact Or.inr (Or.inr (Or.inl h))
          · exact Or.inr (Or.inr (Or.inr (Or.inl h)))
          · exact Or.inr (Or.inr (Or.inr (Or.inr h)))
          · exact Or.inr (Or.inl (by simp [h]))
          · rcases replNumAux_mem rest [] (isWordChar c) x h with hm | hm | hm
            · simp at hm
            · exact Or.inr (Or.inl (by simp [hm]))
            · exact Or.inr (Or.inr hm)

theorem contains_replNum (q : Char) (hqN : q ≠ 'N') (hqU : q ≠ 'U')
    (hqM : q ≠ 'M') (l run : List Char) (pw : Bool)
    (hrun : run.contains q = false) (h : l.contains q = false) :
    (replNumAux pw run l).contains q = false := by
  by_cases hc : (replNumAux pw run l).contains q = true
  · exfalso
    rcases replNumAux_mem l run pw q ((contains_iff_mem q _).mp hc) with
      hm | hm | hm | hm | hm
    · exact contains_false_not_mem run hrun hm
    · exact contains_false_not_mem l h hm
    · exact hqN hm
    · exact hqU hm
    · exact hqM hm
  · simpa using hc

theorem collapse_cons_nws (c : Char) (hc : isJSWhitespace c = false)
    (rest : List Char) (m : Bool) :
    collapseWSAux m (c :: rest) = c :: collapseWSAux false rest := by
  simp only [collapseWSAux]
  rw [if_neg (by simp [hc])]

theorem collapseWSAux_mem : ∀ (m : Bool) (l : List Char) (x : Char),
    x ∈ collapseWSAux m l → x ∈ l ∨ x = ' '
  | _, [], x, h => by simp [collapseWSAux] at h
  | m, c :: rest, x, h => by
    simp only [collapseWSAux] at h
    split at h
    · split at h
      · rcases collapseWSAux_mem true rest x h with hm | hm
        · exact Or.inl (by simp [hm])
        · exact Or.inr hm
      · simp only [List.mem_cons] at h
        rcases h with h | h
        · exact Or.inr h
        · rcases collapseWSAux_mem true rest x h with hm | hm
          · exact Or.inl (by simp [hm])
          · exact Or.inr hm
    · simp only [List.mem_cons] at h
      rcases h with h | h
      · exact Or.inl (by simp [h])
      · rcases collapseWSAux_mem false rest x h with hm | hm
        · exact Or.inl (by simp [hm])
        · exact Or.inr hm

theorem contains_collapse (q : Char) (hq : q ≠ ' ') (m : Bool)
    (l : List Char) (h : l.contains q = false) :
    (collapseWSAux m l).contains q = false := by
  by_cases hc : (collapseWSAux m l).contains q = true
  · exfalso
    rcases collapseWSAux_mem m l q ((contains_iff_mem q _).mp hc) with hm | hm
    · exact contains_false_not_mem l h hm
    · exact hq hm
  · simpa using hc

/-- Preservation of the `q2`-quote invariant through the `q`-quote stage
(`q ≠ q2`): `q2STRq2` blocks contain no `q` and pass through atomically,
and the stage inserts no `q2`. -/
theorem quoteOk_replQ (q q2 : Char) (hne : q2 ≠ q) (hqS : q2 ≠ 'S')
    (hqT : q2 ≠ 'T') (hqR : q2 ≠ 'R') (hS : ('S' : Char) ≠ q)
    (hT : ('T' : Char) ≠ q) (hR : ('R' : Char) ≠ q) :
    ∀ (m : Bool) (l : List Char), quoteOk q2 l = true →
      quoteOk q2 (replQAux q m l) = true
  | false, [], _ => by
    show quoteOk q2 [] = true
    rw [quoteOk]
  | false, c :: rest, h => by
    by_cases hc2 : c = q2
    · rw [hc2] at h ⊢
      rcases (quoteOk_cons_q q2 rest).mp h with ⟨t, ht, hq⟩ | hnc
      · have hlt : t.length + 4 = rest.length := by
          rw [ht]
          simp
        rw [ht]
        rw [replQAux_false_cons_ne q q2 _ hne, replQAux_false_cons_ne q 'S' _ hS,
          replQAux_false_cons_ne q 'T' _ hT, replQAux_false_cons_ne q 'R' _ hR,
          replQAux_false_cons_ne q q2 _ hne]
        exact (quoteOk_block q2 _).mpr
          (quoteOk_replQ q q2 hne hqS hqT hqR hS hT hR false t hq)
      · rw [replQAux_false_cons_ne q q2 _ hne]
        exact quoteOk_lonely q2 _ (contains_replQ q q2 hne hqS hqT hqR false rest hnc)
    · by_cases hcq : c = q
      · by_cases hcon : rest.contains q = true
        · have hstep : replQAux q false (c :: rest) =
              q :: 'S' :: 'T' :: 'R' :: replQAux q true rest := by
            simp only [replQAux]
            rw [if_pos hcq, if_pos hcon]
          rw [hstep]
          rw [quoteOk_cons_ne q2 q _ (Ne.symm hne), quoteOk_cons_ne q2 'S' _ (Ne.symm hqS),
            quoteOk_cons_ne q2 'T' _ (Ne.symm hqT), quoteOk_cons_ne q2 'R' _ (Ne.symm hqR)]
          exact quoteOk_replQ q q2 hne hqS hqT hqR hS hT hR true rest
            (quoteOk_tail_ne q2 c rest hc2 h)
        · have hstep : replQAux q false (c :: rest) = c :: rest := by
            simp only [replQAux]
            rw [if_pos hcq, if_neg hcon]
          rw [hstep]
          exact h
      · rw [replQAux_false_cons_ne q c _ hcq]
        rw [quoteOk_cons_ne q2 c _ hc2]
        exact quoteOk_replQ q q2 hne hqS hqT hqR hS hT hR false rest
          (quoteOk_tail_ne q2 c rest hc2 h)
  | true, [], _ => by
    show quoteOk q2 [] = true
    rw [quoteOk]
  | true, c :: rest, h => by
    by_cases hcq : c = q
    · rw [hcq] at h ⊢
      rw [replQAux_true_cons_q q rest]
      rw [quoteOk_cons_ne q2 q _ (Ne.symm hne)]
      exact quoteOk_replQ q q2 hne hqS hqT hqR hS hT hR false rest
        (quoteOk_tail_ne q2 q rest (Ne.symm hne) h)
    · by_cases hc2 : c = q2
      · rw [hc2] at h ⊢
        rcases (quoteOk_cons_q q2 rest).mp h with ⟨t, ht, hq⟩ | hnc
        · have hlt : t.length + 4 = rest.length := by
            rw [ht]
            simp
          rw [ht]
          rw [replQAux_true_cons_ne q q2 _ hne, replQAux_true_cons_ne q 'S' _ hS,
            replQAux_true_cons_ne q 'T' _ hT, replQAux_true_cons_ne q 'R' _ hR,
            replQAux_true_cons_ne q q2 _ hne]
          exact quoteOk_replQ q q2 hne hqS hqT hqR hS hT hR true t hq
        · rw [replQAux_true_cons_ne q q2 _ hne]
          exact quoteOk_replQ q q2 hne hqS hqT hqR hS hT hR true rest
            (quoteOk_of_not_contains q2 rest hnc)
      · rw [replQAux_true_cons_ne q c _ hcq]
        exact quoteOk_replQ q q2 hne hqS hqT hqR hS hT hR true rest
          (quoteOk_tail_ne q2 c rest hc2 h)
termination_by m l => l.length
decreasing_by
  all_goals simp only [List.length_cons]
  all_goals omega

theorem contains_digits_false (q : Char) (hqd : isDigitChar q = false)
    (run : List Char) (hrun : ∀ x ∈ run, isDigitChar x = true) :
    run.contains q = false := by
  by_cases hc : run.contains q = true
  · have hq := hrun q ((contains_iff_mem q run).mp hc)
    rw [hq] at hqd
    simp at hqd
  · simpa using hc

theorem contains_NUM_false (q : Char) (hqN : q ≠ 'N') (hqU : q ≠ 'U')
    (hqM : q ≠ 'M') : (['N', 'U', 'M'] : List Char).contains q = false := by
  by_cases hc : (['N', 'U', 'M'] : List Char).contains q = true
  · have hm := (contains_iff_mem q _).mp hc
    simp only [List.mem_cons, List.not_mem_nil, or_false] at hm
    rcases hm with hm | hm | hm
    · exact absurd hm hqN
    · exact absurd hm hqU
    · exact absurd hm hqM
  · simpa using hc

/-- Preservation of the `q`-quote invariant through the number stage:
`qSTRq` blocks contain no digit and pass through atomically, and the
inserted `NUM` contains no `q`. -/
theorem quoteOk_replNum (q : Char) (hqd : isDigitChar q = false)
    (hqN : q ≠ 'N') (hqU : q ≠ 'U') (hqM : q ≠ 'M') :
    ∀ (l run : List Char) (pw : Bool), (∀ x ∈ run, isDigitChar x = true) →
      quoteOk q l = true → quoteOk q (replNumAux pw run l) = true
  | [], run, pw, hrun, _ => by
    simp only [replNumAux]
    split
    · rw [quoteOk]
    · split
      · exact quoteOk_of_not_contains q run (contains_digits_false q hqd run hrun)
      · exact quoteOk_of_not_contains q _ (contains_NUM_false q hqN hqU hqM)
  | c :: rest, run, pw, hrun, h => by
    by_cases hdig : isDigitChar c = true
    · have hstep : replNumAux pw run (c :: rest) = replNumAux pw (run ++ [c]) rest := by
        simp only [replNumAux]
        rw [if_pos hdig]
      rw [hstep]
      have hcq : c ≠ q := by
        intro hh
        rw [hh] at hdig
        rw [hqd] at hdig
        simp at hdig
      refine quoteOk_replNum q hqd hqN hqU hqM rest (run ++ [c]) pw ?_
        (quoteOk_tail_ne q c rest hcq h)
      intro z hz
      rcases List.mem_append.mp hz with hz | hz
      · exact hrun z hz
      · simp only [List.mem_singleton] at hz
        rw [hz]
        exact hdig
    · rw [replNum_flush c (by simpa using hdig) run rest pw]
      have hFL : (if run.isEmpty then []
          else if pw || isWordChar c then run
          else (['N', 'U', 'M'] : List Char)).contains q = false := by
        split
        · rfl
        · split
          · exact contains_digits_false q hqd run hrun
          · exact contains_NUM_false q hqN hqU hqM
      rw [quoteOk_append_nq q _ _ hFL]
      by_cases hc2 : c = q
      · rw [hc2] at h ⊢
        rcases (quoteOk_cons_q q rest).mp h with ⟨t, ht, hq⟩ | hnc
        · have hlt : t.length + 4 = rest.length := by
            rw [ht]
            simp
          rw [ht]
          have hadv : replNumAux (isWordChar q) [] ('S' :: 'T' :: 'R' :: q :: t) =
              'S' :: 'T' :: 'R' :: q :: replNumAux (isWordChar q) [] t := by
            rw [replNum_cons_nd 'S' (by decide), replNum_cons_nd 'T' (by decide),
              replNum_cons_nd 'R' (by decide), replNum_cons_nd q hqd]
          rw [hadv]
          exact (quoteOk_block q _).mpr
            (quoteOk_replNum q hqd hqN hqU hqM t [] (isWordChar q) (by simp) hq)
        · exact quoteOk_lonely q _
            (contains_replNum q hqN hqU hqM rest [] (isWordChar q) rfl hnc)
      · rw [quoteOk_cons_ne q c _ hc2]
        exact quoteOk_replNum q hqd hqN hqU hqM rest [] (isWordChar c) (by simp)
          (quoteOk_tail_ne q c rest hc2 h)
termination_by l run pw => l.length
decreasing_by
  all_goals simp only [List.length_cons]
  all_goals omega

/-- Preservation of the `q`-quote invariant through whitespace collapse:
`qSTRq` blocks contain no whitespace and the inserted space is not `q`. -/
theorem quoteOk_collapse (q : Char) (hqw : isJSWhitespace q = false) :
    ∀ (m : Bool) (l : List Char), quoteOk q l = true →
      quoteOk q (collapseWSAux m l) = true
  | _, [], _ => by
    show quoteOk q [] = true
    rw [quoteOk]
  | m, c :: rest, h => by
    by_cases hws : isJSWhitespace c = true
    · have hcq : c ≠ q := by
        intro hh
        rw [hh] at hws
        rw [hqw] at hws
        simp at hws
      have hq2 : quoteOk q rest = true := quoteOk_tail_ne q c rest hcq h
      simp only [collapseWSAux]
      rw [if_pos hws]
      split
      · exact quoteOk_collapse q hqw true rest hq2
      · rw [quoteOk_cons_ne q ' ' _ (fun hh => by
          rw [← hh] at hqw
          exact absurd hqw (by decide))]
        exact quoteOk_collapse q hqw true rest hq2
    · rw [collapse_cons_nws c (by simpa using hws) rest m]
      by_cases hc2 : c = q
      · rw [hc2] at h ⊢
        rcases (quoteOk_cons_q q rest).mp h with ⟨t, ht, hq⟩ | hnc
        · have hlt : t.length + 4 = rest.length := by
            rw [ht]
            simp
          rw [ht]
          rw [collapse_cons_nws 'S' (by decide), collapse_cons_nws 'T' (by decide),
            collapse_cons_nws 'R' (by decide), collapse_cons_nws q hqw]
          exact (quoteOk_block q _).mpr (quoteOk_collapse q hqw false t hq)
        · exact quoteOk_lonely q _ (contains_collapse q (fun hh => by
            rw [hh] at hqw
            exact absurd hqw (by decide)) false rest hnc)
      · rw [quoteOk_cons_ne q c _ hc2]
        exact quoteOk_collapse q hqw false rest (quoteOk_tail_ne q c rest hc2 h)
termination_by m l => l.length
decreasing_by
  all_goals simp only [List.length_cons]
  all_goals omega

/-! Character-class facts: whitespace is neither a word character nor a
digit. -/

theorem digit_is_word (c : Char) (h : isDigitChar c = true) :
    isWordChar c = true := by
  simp only [isDigitChar, Bool.and_eq_true, decide_eq_true_eq] at h
  simp only [isWordChar, Bool.or_eq_true, Bool.and_eq_true, decide_eq_true_eq]
  tauto

theorem ws_not_word (c : Char) (h : isJSWhitespace c = true) :
    isWordChar c = false := by
  by_cases hw : isWordChar c = true
  · exfalso
    simp only [isJSWhitespace, Bool.or_eq_true, Bool.and_eq_true,
      decide_eq_true_eq] at h
    have hlit : ∀ x : Char, c = x → isWordChar x = false → False := by
      intro x hx hfx
      rw [hx, hfx] at hw
      simp at hw
    rcases h with (((((((((((((h|h)|h)|h)|h)|h)|h)|h)|hr)|h)|h)|h)|h)|h)|h
    · exact hlit _ h (by decide)
    · exact hlit _ h (by decide)
    · exact hlit _ h (by decide)
    · exact hlit _ h (by decide)
    · exact hlit _ h (by decide)
    · exact hlit _ h (by decide)
    · exact hlit _ h (by decide)
    · exact hlit _ h (by decide)
    · obtain ⟨h1, h2⟩ := hr
      simp only [isWordChar, Bool.or_eq_true, Bool.and_eq_true,
        decide_eq_true_eq] at hw
      rcases hw with ((⟨ha1, ha2⟩ | ⟨hA1, hA2⟩) | ⟨h01, h02⟩) | rfl
      · exact absurd (le_trans h1 ha2) (by decide)
      · exact absurd (le_trans h1 hA2) (by decide)
      · exact absurd (le_trans h1 h02) (by decide)
      · exact absurd h1 (by decide)
    · exact hlit _ h (by decide)
    · exact hlit _ h (by decide)
    · exact hlit _ h (by decide)
    · exact hlit _ h (by decide)
    · exact hlit _ h (by decide)
    · exact hlit _ h (by decide)
  · simpa using hw

theorem ws_not_digit (c : Char) (h : isJSWhitespace c = true) :
    isDigitChar c = false := by
  by_cases hd : isDigitChar c = true
  · have hw := digit_is_word c hd
    rw [ws_not_word c h] at hw
    simp at hw
  · simpa using hd

/-! Step lemmas for the `numOkAux` checker. -/

theorem numOkAux_cons_d (c : Char) (hd : isDigitChar c = true)
    (pw h : Bool) (rest : List Char) :
    numOkAux pw h (c :: rest) = numOkAux pw true rest := by
  simp only [numOkAux]
  rw [if_pos hd]

theorem numOkAux_cons_nd (c : Char) (hd : isDigitChar c = false)
    (pw : Bool) (rest : List Char) :
    numOkAux pw false (c :: rest) = numOkAux (isWordChar c) false rest := by
  simp only [numOkAux]
  rw [if_neg (by simp [hd]), if_neg (by simp)]

theorem numOkAux_cons_run (c : Char) (hd : isDigitChar c = false)
    (pw : Bool) (rest : List Char) :
    numOkAux pw true (c :: rest) =
      ((pw || isWordChar c) && numOkAux (isWordChar c) false rest) := by
  simp only [numOkAux]
  rw [if_neg (by simp [hd]), if_pos (by trivial)]

theorem numOkAux_digits_run : ∀ (run rest : List Char) (pw : Bool),
    (∀ x ∈ run, isDigitChar x = true) →
      numOkAux pw true (run ++ rest) = numOkAux pw true rest
  | [], _, _, _ => rfl
  | x :: r, rest, pw, hd => by
    simp only [List.cons_append]
    rw [numOkAux_cons_d x (hd x (by simp)) pw true]
    exact numOkAux_digits_run r rest pw (fun z hz => hd z (by simp [hz]))

theorem numOkAux_digits_front (run rest : List Char) (pw : Bool)
    (hd : ∀ x ∈ run, isDigitChar x = true) (hne : run ≠ []) :
    numOkAux pw false (run ++ rest) = numOkAux pw true rest := by
  cases run with
  | nil => exact absurd rfl hne
  | cons x r =>
    simp only [List.cons_append]
    rw [numOkAux_cons_d x (hd x (by simp)) pw false]
    exact numOkAux_digits_run r rest pw (fun z hz => hd z (by simp [hz]))

theorem numOkAux_NUM_front (rest : List Char) (pw : Bool) :
    numOkAux pw false ('N' :: 'U' :: 'M' :: rest) = numOkAux true false rest := by
  rw [numOkAux_cons_nd 'N' (by decide), show isWordChar 'N' = true from by decide,
    numOkAux_cons_nd 'U' (by decide), show isWordChar 'U' = true from by decide,
    numOkAux_cons_nd 'M' (by decide), show isWordChar 'M' = true from by decide]

/-! Stage 6 (numbers): fixed point and establishment. -/

theorem replNum_fix : ∀ (l run : List Char) (pw : Bool),
    numOkAux pw (!run.isEmpty) l = true → replNumAux pw run l = run ++ l
  | [], run, pw, h => by
    cases run with
    | nil => rfl
    | cons y r =>
      have hpw : pw = true := by simpa [numOkAux] using h
      simp only [replNumAux]
      rw [if_neg (by simp), if_pos hpw, List.append_nil]
  | c :: rest, run, pw, h => by
    by_cases hdig : isDigitChar c = true
    · rw [numOkAux_cons_d c hdig] at h
      simp only [replNumAux]
      rw [if_pos hdig]
      have hrec := replNum_fix rest (run ++ [c]) pw (by
        have hne : (run ++ [c]).isEmpty = false := by
          cases run <;> rfl
        rw [hne]
        exact h)
      rw [hrec, List.append_assoc, List.singleton_append]
    · cases run with
      | nil =>
        rw [show (!([] : List Char).isEmpty) = false from rfl] at h
        rw [numOkAux_cons_nd c (by simpa using hdig)] at h
        rw [replNum_cons_nd c (by simpa using hdig)]
        rw [replNum_fix rest [] (isWordChar c) (by simpa using h)]
        rfl
      | cons y r =>
        rw [show (!((y :: r) : List Char).isEmpty) = true from rfl] at h
        rw [numOkAux_cons_run c (by simpa using hdig)] at h
        simp only [Bool.and_eq_true] at h
        obtain ⟨hpw, hrec⟩ := h
        rw [replNum_flush c (by simpa using hdig) (y :: r) rest pw]
        rw [if_neg (by simp), if_pos hpw]
        rw [replNum_fix rest [] (isWordChar c) (by simpa using hrec)]
        rfl

theorem replNum_est : ∀ (l run : List Char) (pw : Bool),
    (∀ x ∈ run, isDigitChar x = true) →
      numOkAux pw false (replNumAux pw run l) = true
  | [], run, pw, hrun => by
    simp only [replNumAux]
    split
    · rfl
    · split
      · rename_i hne hpw
        rw [show run = run ++ [] from (List.append_nil run).symm,
          numOkAux_digits_front run [] pw hrun
            (fun heq => hne (by rw [heq]; rfl))]
        simp [numOkAux, hpw]
      · rw [numOkAux_NUM_front [] pw]
        rfl
  | c :: rest, run, pw, hrun => by
    by_cases hdig : isDigitChar c = true
    · have hstep : replNumAux pw run (c :: rest) = replNumAux pw (run ++ [c]) rest := by
        simp only [replNumAux]
        rw [if_pos hdig]
      rw [hstep]
      refine replNum_est rest (run ++ [c]) pw ?_
      intro z hz
      rcases List.mem_append.mp hz with hz | hz
      · exact hrun z hz
      · simp only [List.mem_singleton] at hz
        rw [hz]
        exact hdig
    · rw [replNum_flush c (by simpa using hdig) run rest pw]
      by_cases hre : run.isEmpty = true
      · rw [if_pos hre, List.nil_append]
        rw [numOkAux_cons_nd c (by simpa using hdig)]
        exact replNum_est rest [] (isWordChar c) (by simp)
      · rw [if_neg hre]
        by_cases hpw : (pw || isWordChar c) = true
        · rw [if_pos hpw]
          have hne : run ≠ [] := fun heq => hre (by rw [heq]; rfl)
          rw [numOkAux_digits_front run _ pw hrun hne]
          rw [numOkAux_cons_run c (by simpa using hdig)]
          simp only [hpw, Bool.true_and]
          exact replNum_est rest [] (isWordChar c) (by simp)
        · rw [if_neg hpw]
          rw [show (['N', 'U', 'M'] : List Char) ++
              c :: replNumAux (isWordChar c) [] rest =
              'N' :: 'U' :: 'M' :: (c :: replNumAux (isWordChar c) [] rest) from rfl]
          rw [numOkAux_NUM_front]
          rw [numOkAux_cons_nd c (by simpa using hdig)]
          exact replNum_est rest [] (isWordChar c) (by simp)

/-- Preservation of the number invariant through whitespace collapse:
both whitespace and the replacement space are non-word non-digit
characters, so word-boundary states are unchanged. -/
theorem numOk_collapse : ∀ l : List Char,
    (∀ pw h : Bool, numOkAux pw h l = true →
        numOkAux pw h (collapseWSAux false l) = true) ∧
    (numOkAux false false l = true →
        numOkAux false false (collapseWSAux true l) = true)
  | [] => ⟨fun _ _ hh => hh, fun hh => hh⟩
  | c :: rest => by
    constructor
    · intro pw h hh
      by_cases hws : isJSWhitespace c = true
      · simp only [collapseWSAux]
        rw [if_pos hws, if_neg (by simp)]
        cases h with
        | true =>
          rw [numOkAux_cons_run c (ws_not_digit c hws)] at hh
          simp only [Bool.and_eq_true, Bool.or_eq_true] at hh
          obtain ⟨hpw, hrec⟩ := hh
          rw [ws_not_word c hws] at hrec
          rw [numOkAux_cons_run ' ' (by decide)]
          simp only [Bool.and_eq_true, Bool.or_eq_true]
          refine ⟨?_, ?_⟩
          · rcases hpw with hpw | hpw
            · exact Or.inl hpw
            · rw [ws_not_word c hws] at hpw
              simp at hpw
          · rw [show isWordChar ' ' = false from by decide]
            exact (numOk_collapse rest).2 hrec
        | false =>
          rw [numOkAux_cons_nd c (ws_not_digit c hws)] at hh
          rw [ws_not_word c hws] at hh
          rw [numOkAux_cons_nd ' ' (by decide),
            show isWordChar ' ' = false from by decide]
          exact (numOk_collapse rest).2 hh
      · rw [collapse_cons_nws c (by simpa using hws)]
        by_cases hdig : isDigitChar c = true
        · rw [numOkAux_cons_d c hdig] at hh
          rw [numOkAux_cons_d c hdig]
          exact (numOk_collapse rest).1 pw true hh
        · cases h with
          | true =>
            rw [numOkAux_cons_run c (by simpa using hdig)] at hh ⊢
            simp only [Bool.and_eq_true] at hh ⊢
            exact ⟨hh.1, (numOk_collapse rest).1 (isWordChar c) false hh.2⟩
          | false =>
            rw [numOkAux_cons_nd c (by simpa using hdig)] at hh ⊢
            exact (numOk_collapse rest).1 (isWordChar c) false hh
    · intro hh
      by_cases hws : isJSWhitespace c = true
      · simp only [collapseWSAux]
        rw [if_pos hws, if_pos (by trivial)]
        rw [numOkAux_cons_nd c (ws_not_digit c hws), ws_not_word c hws] at hh
        exact (numOk_collapse rest).2 hh
      · rw [collapse_cons_nws c (by simpa using hws)]
        by_cases hdig : isDigitChar c = true
        · rw [numOkAux_cons_d c hdig] at hh ⊢
          exact (numOk_collapse rest).1 false true hh
        · rw [numOkAux_cons_nd c (by simpa using hdig)] at hh ⊢
          exact (numOk_collapse rest).1 (isWordChar c) false hh

/-! Stage 7 (whitespace collapse) and stage 8 (trim): fixed points and
establishment. -/

theorem wsOk_cons (c : Char) (t : List Char)
    (hc : isJSWhitespace c = false ∨
      (c = ' ' ∧ ∀ x, t.head? = some x → isJSWhitespace x = false))
    (ht : wsOk t = true) : wsOk (c :: t) = true := by
  match t with
  | [] =>
    simp only [wsOk, Bool.or_eq_true]
    rcases hc with hc | ⟨hc, _⟩
    · exact Or.inl (by simp [hc])
    · exact Or.inr (by simp [hc])
  | d :: t2 =>
    simp only [wsOk, Bool.and_eq_true]
    refine ⟨?_, ht⟩
    simp only [Bool.or_eq_true, Bool.and_eq_true]
    rcases hc with hc | ⟨hc, hd⟩
    · exact Or.inl (by simp [hc])
    · refine Or.inr ⟨by simp [hc], ?_⟩
      have hd2 := hd d rfl
      simp [hd2]

theorem wsOk_tail (c : Char) (t : List Char) (h : wsOk (c :: t) = true) :
    wsOk t = true := by
  match t with
  | [] => rfl
  | d :: t2 =>
    simp only [wsOk, Bool.and_eq_true] at h
    exact h.2

theorem collapse_est : ∀ (m : Bool) (l : List Char),
    wsOk (collapseWSAux m l) = true
  | _, [] => rfl
  | m, c :: rest => by
    by_cases hws : isJSWhitespace c = true
    · simp only [collapseWSAux]
      rw [if_pos hws]
      split
      · exact collapse_est true rest
      · refine wsOk_cons ' ' _ (Or.inr ⟨rfl, ?_⟩) (collapse_est true rest)
        intro x hx
        exact collapseWSAux_true_head rest x hx
    · rw [collapse_cons_nws c (by simpa using hws)]
      exact wsOk_cons c _ (Or.inl (by simpa using hws)) (collapse_est false rest)

theorem collapse_fix : ∀ l : List Char, wsOk l = true →
    (collapseWSAux false l = l ∧
      ((∀ x, l.head? = some x → isJSWhitespace x = false) →
        collapseWSAux true l = l))
  | [], _ => ⟨rfl, fun _ => rfl⟩
  | c :: rest, h => by
    by_cases hws : isJSWhitespace c = true
    · have hc : c = ' ' ∧
          (∀ x, rest.head? = some x → isJSWhitespace x = false) := by
        match rest, h with
        | [], h =>
          simp only [wsOk, Bool.or_eq_true] at h
          rcases h with h | h
          · rw [hws] at h
            simp at h
          · exact ⟨by simpa using h, fun x hx => by simp at hx⟩
        | d :: t2, h =>
          simp only [wsOk, Bool.and_eq_true, Bool.or_eq_true] at h
          rcases h.1 with h1 | h1
          · rw [hws] at h1
            simp at h1
          · simp only [Bool.and_eq_true, decide_eq_true_eq] at h1
            refine ⟨h1.1, ?_⟩
            intro x hx
            simp only [List.head?, Option.some.injEq] at hx
            rw [← hx]
            simpa using h1.2
      constructor
      · simp only [collapseWSAux]
        rw [if_pos hws, if_neg (by simp)]
        rw [hc.1]
        congr 1
        exact (collapse_fix rest (wsOk_tail c rest h)).2 hc.2
      · intro hhead
        have hcontra := hhead c rfl
        rw [hcontra] at hws
        simp at hws
    · have hrec := collapse_fix rest (wsOk_tail c rest h)
      constructor
      · rw [collapse_cons_nws c (by simpa using hws)]
        rw [hrec.1]
      · intro _
        rw [collapse_cons_nws c (by simpa using hws)]
        rw [hrec.1]

theorem dropWhile_eq_self_of_head (p : Char → Bool) (l : List Char)
    (h : ∀ x, l.head? = some x → p x = false) : l.dropWhile p = l := by
  cases l with
  | nil => rfl
  | cons c rest =>
    rw [List.dropWhile_cons, if_neg (by simp [h c rfl])]

theorem jsTrim_fix (l : List Char) (h : noEndWs l = true) : jsTrimList l = l := by
  simp only [noEndWs, Bool.and_eq_true] at h
  obtain ⟨h1, h2⟩ := h
  have hhead : ∀ x, l.head? = some x → isJSWhitespace x = false := by
    intro x hx
    rw [hx] at h1
    simpa using h1
  have hlast : ∀ x, l.getLast? = some x → isJSWhitespace x = false := by
    intro x hx
    rw [hx] at h2
    simpa using h2
  simp only [jsTrimList]
  rw [dropWhile_eq_self_of_head isJSWhitespace l hhead]
  rw [dropWhile_eq_self_of_head isJSWhitespace l.reverse
    (fun x hx => hlast x (by rwa [List.head?_reverse] at hx))]
  exact List.reverse_reverse l

theorem head_dropWhile_ws : ∀ (l : List Char) (x : Char),
    (l.dropWhile isJSWhitespace).head? = some x → isJSWhitespace x = false
  | [], x, h => by simp at h
  | c :: rest, x, h => by
    rw [List.dropWhile_cons] at h
    split at h
    · exact head_dropWhile_ws rest x h
    · rename_i hc
      simp only [List.head?, Option.some.injEq] at h
      rw [← h]
      simpa using hc

theorem jsTrim_est (l : List Char) : noEndWs (jsTrimList l) = true := by
  have hlast : ∀ x, (jsTrimList l).getLast? = some x →
      isJSWhitespace x = false := by
    intro x hx
    simp only [jsTrimList] at hx
    rw [List.getLast?_reverse] at hx
    exact head_dropWhile_ws _ x hx
  have hhead : ∀ x, (jsTrimList l).head? = some x →
      isJSWhitespace x = false := by
    intro x hx
    have hsuf : (l.dropWhile isJSWhitespace).reverse.dropWhile isJSWhitespace <:+
        (l.dropWhile isJSWhitespace).reverse :=
      List.dropWhile_suffix isJSWhitespace
    obtain ⟨t, ht⟩ := hsuf
    have hD : l.dropWhile isJSWhitespace = jsTrimList l ++ t.reverse := by
      have h4 := congrArg List.reverse ht
      rw [List.reverse_append, List.reverse_reverse] at h4
      exact h4.symm
    cases hR : jsTrimList l with
    | nil =>
      rw [hR] at hx
      simp at hx
    | cons c r =>
      rw [hR] at hx hD
      simp only [List.head?, Option.some.injEq] at hx
      have hDh : (l.dropWhile isJSWhitespace).head? = some x := by
        rw [hD]
        simp [hx]
      exact head_dropWhile_ws l x hDh
  simp only [noEndWs, Bool.and_eq_true]
  constructor
  · cases hx : (jsTrimList l).head? with
    | none => rfl
    | some x => simp [hhead x hx]
  · cases hx : (jsTrimList l).getLast? with
    | none => rfl
    | some x => simp [hlast x hx]

theorem jsTrimList_decomp (l : List Char) : ∃ u v,
    l = u ++ jsTrimList l ++ v ∧ (∀ c ∈ u, isJSWhitespace c = true) ∧
      (∀ c ∈ v, isJSWhitespace c = true) := by
  have h1 : l = l.takeWhile isJSWhitespace ++ l.dropWhile isJSWhitespace :=
    (List.takeWhile_append_dropWhile isJSWhitespace l).symm
  have h3 : (l.dropWhile isJSWhitespace).reverse =
      (l.dropWhile isJSWhitespace).reverse.takeWhile isJSWhitespace ++
        (l.dropWhile isJSWhitespace).reverse.dropWhile isJSWhitespace :=
    (List.takeWhile_append_dropWhile isJSWhitespace
      (l.dropWhile isJSWhitespace).reverse).symm
  have h2 : l.dropWhile isJSWhitespace = jsTrimList l ++
      ((l.dropWhile isJSWhitespace).reverse.takeWhile isJSWhitespace).reverse := by
    have h4 := congrArg List.reverse h3
    rw [List.reverse_reverse, List.reverse_append] at h4
    exact h4
  rw [h2] at h1
  refine ⟨l.takeWhile isJSWhitespace,
    ((l.dropWhile isJSWhitespace).reverse.takeWhile isJSWhitespace).reverse,
    ?_, ?_, ?_⟩
  · exact h1.trans (List.append_assoc _ _ _).symm
  · intro c hc
    exact List.mem_takeWhile_imp hc
  · intro c hc
    rw [List.mem_reverse] at hc
    exact List.mem_takeWhile_imp hc

/-! Removing leading and trailing whitespace (the trim stage) preserves
all the invariants. -/

theorem wsOk_of_append_left : ∀ (w t : List Char),
    wsOk (w ++ t) = true → wsOk t = true
  | [], _, h => h
  | c :: w', t, h => wsOk_of_append_left w' t (wsOk_tail c _ h)

theorem wsOk_of_append_right : ∀ (t v : List Char),
    wsOk (t ++ v) = true → wsOk t = true
  | [], _, _ => rfl
  | [c], v, h => by
    cases v with
    | nil => simpa using h
    | cons d v2 =>
      simp only [List.singleton_append, wsOk, Bool.and_eq_true,
        Bool.or_eq_true] at h
      have hgoal : wsOk [c] = (!isJSWhitespace c || c = ' ') := rfl
      rw [hgoal]
      simp only [Bool.or_eq_true]
      rcases h.1 with h1 | h1
      · exact Or.inl h1
      · exact Or.inr h1.1
  | c :: d :: t2, v, h => by
    simp only [List.cons_append, wsOk, Bool.and_eq_true] at h ⊢
    exact ⟨h.1, wsOk_of_append_right (d :: t2) v h.2⟩

theorem numOk_ws_front : ∀ (u m : List Char),
    (∀ c ∈ u, isJSWhitespace c = true) →
    numOkAux false false (u ++ m) = true → numOkAux false false m = true
  | [], _, _, h => h
  | c :: u', m, hu, h => by
    have hws := hu c (by simp)
    rw [List.cons_append, numOkAux_cons_nd c (ws_not_digit c hws),
      ws_not_word c hws] at h
    exact numOk_ws_front u' m (fun z hz => hu z (by simp [hz])) h

theorem numOk_ws_back : ∀ (m v : List Char) (pw h : Bool),
    (∀ c ∈ v, isJSWhitespace c = true) →
    numOkAux pw h (m ++ v) = true → numOkAux pw h m = true
  | [], v, pw, h, hv, hh => by
    cases v with
    | nil => exact hh
    | cons c v2 =>
      have hws := hv c (by simp)
      cases h with
      | true =>
        rw [List.nil_append, numOkAux_cons_run c (ws_not_digit c hws)] at hh
        simp only [Bool.and_eq_true, Bool.or_eq_true] at hh
        rcases hh.1 with hpw | hpw
        · simp [numOkAux, hpw]
        · rw [ws_not_word c hws] at hpw
          simp at hpw
      | false => rfl
  | c :: m2, v, pw, h, hv, hh => by
    by_cases hdig : isDigitChar c = true
    · rw [List.cons_append, numOkAux_cons_d c hdig] at hh
      rw [numOkAux_cons_d c hdig]
      exact numOk_ws_back m2 v pw true hv hh
    · cases h with
      | true =>
        rw [List.cons_append, numOkAux_cons_run c (by simpa using hdig)] at hh
        rw [numOkAux_cons_run c (by simpa using hdig)]
        simp only [Bool.and_eq_true] at hh ⊢
        exact ⟨hh.1, numOk_ws_back m2 v (isWordChar c) false hv hh.2⟩
      | false =>
        rw [List.cons_append, numOkAux_cons_nd c (by simpa using hdig)] at hh
        rw [numOkAux_cons_nd c (by simpa using hdig)]
        exact numOk_ws_back m2 v (isWordChar c) false hv hh

theorem quoteOk_ws_front (q : Char) (hqw : isJSWhitespace q = false) :
    ∀ (u m : List Char), (∀ c ∈ u, isJSWhitespace c = true) →
      quoteOk q (u ++ m) = true → quoteOk q m = true
  | [], _, _, h => h
  | c :: u', m, hu, h => by
    have hc : c ≠ q := by
      intro hh
      have hcw := hu c (by simp)
      rw [hh] at hcw
      rw [hcw] at hqw
      simp at hqw
    exact quoteOk_ws_front q hqw u' m (fun z hz => hu z (by simp [hz]))
      (quoteOk_tail_ne q c _ hc h)

theorem quoteOk_ws_snoc (q : Char) (hqw : isJSWhitespace q = false) :
    ∀ (m : List Char) (w : Char), isJSWhitespace w = true →
      quoteOk q (m ++ [w]) = true → quoteOk q m = true
  | [], _, _, _ => by rw [quoteOk]
  | c :: m2, w, hw, h => by
    by_cases hc : c = q
    · rw [hc] at h ⊢
      rw [List.cons_append] at h
      rcases (quoteOk_cons_q q (m2 ++ [w])).mp h with ⟨t, ht, hq⟩ | hnc
      · match m2, ht with
        | [], ht => simp at ht
        | [x1], ht => simp at ht
        | [x1, x2], ht =>
          exfalso
          simp only [List.cons_append, List.nil_append, List.cons.injEq] at ht
          rw [ht.2.2.1] at hw
          exact absurd hw (by decide)
        | [x1, x2, x3], ht =>
          exfalso
          simp only [List.cons_append, List.nil_append, List.cons.injEq] at ht
          rw [ht.2.2.2.1] at hw
          rw [hw] at hqw
          simp at hqw
        | x1 :: x2 :: x3 :: x4 :: m3, ht =>
          simp only [List.cons_append, List.cons.injEq] at ht
          obtain ⟨hx1, hx2, hx3, hx4, h5⟩ := ht
          rw [hx1, hx2, hx3, hx4]
          refine (quoteOk_block q m3).mpr ?_
          refine quoteOk_ws_snoc q hqw m3 w hw ?_
          rw [h5]
          exact hq
      · refine quoteOk_lonely q m2 ?_
        by_cases hcm : m2.contains q = true
        · have hmem : q ∈ m2 ++ [w] :=
            List.mem_append.mpr (Or.inl ((contains_iff_mem q m2).mp hcm))
          rw [(contains_iff_mem q _).mpr hmem] at hnc
          simp at hnc
        · simpa using hcm
    · rw [List.cons_append] at h
      rw [quoteOk_cons_ne q c _ hc] at h ⊢
      exact quoteOk_ws_snoc q hqw m2 w hw h

theorem quoteOk_ws_back (q : Char) (hqw : isJSWhitespace q = false)
    (v : List Char) : ∀ (m : List Char), (∀ c ∈ v, isJSWhitespace c = true) →
      quoteOk q (m ++ v) = true → quoteOk q m = true := by
  induction v using List.reverseRecOn with
  | nil =>
    intro m _ h
    simpa using h
  | append_singleton v2 w ih =>
    intro m hv h
    rw [← List.append_assoc] at h
    exact ih m (fun z hz => hv z (by simp [hz]))
      (quoteOk_ws_snoc q hqw (m ++ v2) w (hv w (by simp)) h)

/-- All eight stage invariants hold at the output of `normalizeList`. -/
theorem normalize_invariants (x : List Char) :
    noDSlash (normalizeList x) = true ∧ blockOk (normalizeList x) = true ∧
      quoteOk dqChar (normalizeList x) = true ∧
      quoteOk sqChar (normalizeList x) = true ∧
      quoteOk bqChar (normalizeList x) = true ∧
      numOk (normalizeList x) = true ∧ wsOk (normalizeList x) = true ∧
      noEndWs (normalizeList x) = true := by
  have hD1 : noDSlash (rmLineComments x) = true := rmLine_est false x
  have hD2 : noDSlash (rmBlockComments (rmLineComments x)) = true :=
    rmBlock_noDSlash false _ hD1
  have hB2 : blockOk (rmBlockComments (rmLineComments x)) = true :=
    rmBlock_est false _ hD1
  set z2 := rmBlockComments (rmLineComments x) with hz2
  have hD3 : noDSlash (replQAux dqChar false z2) = true :=
    noPairAt_replQ '/' '/' dqChar (by decide) (by decide) (by decide)
      (by decide) (by decide) false z2 hD2
  have hB3 : blockOk (replQAux dqChar false z2) = true :=
    blockOk_replQ dqChar (by decide) (by decide) false z2 hB2
  have hQd3 : quoteOk dqChar (replQAux dqChar false z2) = true :=
    replQ_est dqChar z2
  set z3 := replQAux dqChar false z2 with hz3
  have hD4 : noDSlash (replQAux sqChar false z3) = true :=
    noPairAt_replQ '/' '/' sqChar (by decide) (by decide) (by decide)
      (by decide) (by decide) false z3 hD3
  have hB4 : blockOk (replQAux sqChar false z3) = true :=
    blockOk_replQ sqChar (by decide) (by decide) false z3 hB3
  have hQd4 : quoteOk dqChar (replQAux sqChar false z3) = true :=
    quoteOk_replQ sqChar dqChar (by decide) (by decide) (by decide) (by decide)
      (by decide) (by decide) (by decide) false z3 hQd3
  have hQs4 : quoteOk sqChar (replQAux sqChar false z3) = true :=
    replQ_est sqChar z3
  set z4 := replQAux sqChar false z3 with hz4
  have hD5 : noDSlash (replQAux bqChar false z4) = true :=
    noPairAt_replQ '/' '/' bqChar (by decide) (by decide) (by decide)
      (by decide) (by decide) false z4 hD4
  have hB5 : blockOk (replQAux bqChar false z4) = true :=
    blockOk_replQ bqChar (by decide) (by decide) false z4 hB4
  have hQd5 : quoteOk dqChar (replQAux bqChar false z4) = true :=
    quoteOk_replQ bqChar dqChar (by decide) (by decide) (by decide) (by decide)
      (by decide) (by decide) (by decide) false z4 hQd4
  have hQs5 : quoteOk sqChar (replQAux bqChar false z4) = true :=
    quoteOk_replQ bqChar sqChar (by decide) (by decide) (by decide) (by decide)
      (by decide) (by decide) (by decide) false z4 hQs4
  have hQb5 : quoteOk bqChar (replQAux bqChar false z4) = true :=
    replQ_est bqChar z4
  set z5 := replQAux bqChar false z4 with hz5
  have hD6 : noDSlash (replNumAux false [] z5) = true :=
    noPairAt_replNum '/' '/' (by decide) (by decide) (by decide) (by decide)
      z5 [] false hD5
  have hB6 : blockOk (replNumAux false [] z5) = true :=
    blockOk_replNum z5 [] false (by simp) hB5
  have hQd6 : quoteOk dqChar (replNumAux false [] z5) = true :=
    quoteOk_replNum dqChar (by decide) (by decide) (by decide) (by decide)
      z5 [] false (by simp) hQd5
  have hQs6 : quoteOk sqChar (replNumAux false [] z5) = true :=
    quoteOk_replNum sqChar (by decide) (by decide) (by decide) (by decide)
      z5 [] false (by simp) hQs5
  have hQb6 : quoteOk bqChar (replNumAux false [] z5) = true :=
    quoteOk_replNum bqChar (by decide) (by decide) (by decide) (by decide)
      z5 [] false (by simp) hQb5
  have hN6 : numOkAux false false (replNumAux false [] z5) = true :=
    replNum_est z5 [] false (by simp)
  set z6 := replNumAux false [] z5 with hz6
  have hD7 : noDSlash (collapseWSAux false z6) = true :=
    noPairAt_collapse '/' '/' (by decide) (by decide) false z6 hD6
  have hB7 : blockOk (collapseWSAux false z6) = true :=
    blockOk_collapse false z6 hB6
  have hQd7 : quoteOk dqChar (collapseWSAux false z6) = true :=
    quoteOk_collapse dqChar (by decide) false z6 hQd6
  have hQs7 : quoteOk sqChar (collapseWSAux false z6) = true :=
    quoteOk_collapse sqChar (by decide) false z6 hQs6
  have hQb7 : quoteOk bqChar (collapseWSAux false z6) = true :=
    quoteOk_collapse bqChar (by decide) false z6 hQb6
  have hN7 : numOkAux false false (collapseWSAux false z6) = true :=
    (numOk_collapse z6).1 false false hN6
  have hW7 : wsOk (collapseWSAux false z6) = true := collapse_est false z6
  set z7 := collapseWSAux false z6 with hz7
  have hyeq : normalizeList x = jsTrimList z7 := by
    rw [hz7, hz6, hz5, hz4, hz3, hz2]
    rfl
  obtain ⟨u, v, hdec, hu, hv⟩ := jsTrimList_decomp z7
  have h8 : z7 = u ++ (jsTrimList z7 ++ v) := by
    rw [← List.append_assoc]
    exact hdec
  rw [h8] at hD7 hB7 hQd7 hQs7 hQb7 hN7 hW7
  have hDy : noDSlash (jsTrimList z7) = true :=
    noPairAt_of_append_right '/' '/' _ v (noPairAt_of_append_left '/' '/' u _ hD7)
  have hBy : blockOk (jsTrimList z7) = true :=
    blockOk_of_append_right v _ (blockOk_of_append_left u _ hB7)
  have hQdy : quoteOk dqChar (jsTrimList z7) = true :=
    quoteOk_ws_back dqChar (by decide) v _ hv
      (quoteOk_ws_front dqChar (by decide) u _ hu hQd7)
  have hQsy : quoteOk sqChar (jsTrimList z7) = true :=
    quoteOk_ws_back sqChar (by decide) v _ hv
      (quoteOk_ws_front sqChar (by decide) u _ hu hQs7)
  have hQby : quoteOk bqChar (jsTrimList z7) = true :=
    quoteOk_ws_back bqChar (by decide) v _ hv
      (quoteOk_ws_front bqChar (by decide) u _ hu hQb7)
  have hNy : numOkAux false false (jsTrimList z7) = true :=
    numOk_ws_back _ v false false hv (numOk_ws_front u _ hu hN7)
  have hWy : wsOk (jsTrimList z7) = true :=
    wsOk_of_append_right _ v (wsOk_of_append_left u _ hW7)
  have hEy : noEndWs (jsTrimList z7) = true := jsTrim_est z7
  rw [hyeq]
  exact ⟨hDy, hBy, hQdy, hQsy, hQby, hNy, hWy, hEy⟩

/-- The list-level normaliser is idempotent. -/
theorem normalizeList_idem (x : List Char) :
    normalizeList (normalizeList x) = normalizeList x := by
  obtain ⟨hD, hB, hQd, hQs, hQb, hN, hW, hE⟩ := normalize_invariants x
  have h1 : rmLineComments (normalizeList x) = normalizeList x :=
    rmLine_fix _ hD
  have h2 : rmBlockComments (normalizeList x) = normalizeList x :=
    rmBlock_fix _ hB
  have h3 : replQuote dqChar (normalizeList x) = normalizeList x :=
    replQ_fix dqChar (by decide) (by decide) (by decide) _ hQd
  have h4 : replQuote sqChar (normalizeList x) = normalizeList x :=
    replQ_fix sqChar (by decide) (by decide) (by decide) _ hQs
  have h5 : replQuote bqChar (normalizeList x) = normalizeList x :=
    replQ_fix bqChar (by decide) (by decide) (by decide) _ hQb
  have h6 : replNum (normalizeList x) = normalizeList x := by
    have h := replNum_fix (normalizeList x) [] false hN
    simpa using h
  have h7 : collapseWS (normalizeList x) = normalizeList x :=
    (collapse_fix _ hW).1
  have h8 : jsTrimList (normalizeList x) = normalizeList x := jsTrim_fix _ hE
  show jsTrimList (collapseWS (replNum (replQuote bqChar (replQuote sqChar
    (replQuote dqChar (rmBlockComments (rmLineComments
      (normalizeList x)))))))) = normalizeList x
  rw [h1, h2, h3, h4, h5, h6, h7, h8]

/-- C7: normalizeCode is idempotent — normalising an already-normalised
string leaves it unchanged (each of the eight replacement stages is the
identity on the normaliser's output). -/
theorem c7_normalize_idempotent (s : String) :
    normalizeCode (normalizeCode s) = normalizeCode s :=
  congrArg String.mk (normalizeList_idem s.data)

end AiReady
